import Mathlib

/-!
Verification development for the CSP (Content-Security-Policy) reconciliation
core of the helix-html-pipeline repository.

The repository contains two implementations of the same reconciliation
algorithm:
* a tree-based one (module `src/unnamed/part_000`) which queries and stamps
  all descendant elements of a hast tree via `hast-util-select`;
* a head-fragment one (`src/src/steps/render.js`) which scans and stamps only
  the direct children of a head fragment root.

JavaScript strings are embedded as `List Char`; hast trees as a mutually
inductive node/forest type whose element nodes carry a numeric `id` modelling
JavaScript object identity (node references); the response object as a
structure holding an association list of headers (names stored already
normalised to lower case, as the Fetch `Headers` class does) and a body.
The cryptographically random nonce is passed in as an explicit parameter.
-/

abbrev Str := List Char

def strL (s : String) : Str := s.toList

/-! ## JavaScript string primitives -/

/-- The whitespace characters recognised by JavaScript `String.prototype.trim`
(the common subset: space, tab, line feed, carriage return, vertical tab,
form feed, no-break space, BOM). -/
def isJsWs (c : Char) : Bool :=
  c = ' ' ∨ c = '\t' ∨ c = '\n' ∨ c = '\r' ∨ c = '\x0b' ∨ c = '\x0c' ∨
    c = '\u00A0' ∨ c = '\uFEFF'

/-- JavaScript `s.trim()`: drop leading and trailing whitespace. -/
def trimStr (s : Str) : Str :=
  ((s.dropWhile isJsWs).reverse.dropWhile isJsWs).reverse

/-- JavaScript `s.split(sep)` for a one-character separator: always returns a
non-empty list of fields; `''.split(c) = ['']`. -/
def splitOnChar (c : Char) : Str → List Str
  | [] => [[]]
  | x :: xs =>
    match splitOnChar c xs with
    | [] => [[]]
    | h :: t => if x = c then [] :: h :: t else (x :: h) :: t

/-- JavaScript `parts.join(sep)` / template concatenation with separator. -/
def joinSep (sep : Str) : List Str → Str
  | [] => []
  | [x] => x
  | x :: y :: rest => x ++ sep ++ joinSep sep (y :: rest)

/-- JavaScript `s.includes(needle)`: substring containment. -/
def includesSub (pat : Str) : Str → Bool
  | [] => List.isPrefixOf pat []
  | x :: xs => List.isPrefixOf pat (x :: xs) || includesSub pat xs

/-- Fuel-driven worker for `replaceAllStr` (structural on the fuel so that
concrete instances reduce definitionally). -/
def replaceAllGo (pat repl : Str) : Nat → Str → Str
  | _, [] => []
  | 0, s => s
  | fuel + 1, x :: xs =>
    if List.isPrefixOf pat (x :: xs) then
      repl ++ replaceAllGo pat repl fuel (List.drop (pat.length - 1) xs)
    else
      x :: replaceAllGo pat repl fuel xs

/-- JavaScript `s.replaceAll(pat, repl)` for a non-empty string pattern:
replace each left-to-right non-overlapping occurrence of `pat` by `repl`,
never re-scanning replacement text.  (The sources only call this with the
pattern `'nonce'`; the degenerate empty pattern is mapped to the identity.) -/
def replaceAllStr (pat repl s : Str) : Str :=
  if pat = [] then s else replaceAllGo pat repl s.length s

/-- JavaScript `s.toLowerCase()` (ASCII, which covers the attribute values
compared by the sources). -/
def lowerStr (s : Str) : Str := s.map Char.toLower

/-! ## String literals used by the sources -/

def nonceLit : Str := strL ("nonce")
def cspName : Str := strL ("content-security-policy")
def cspCapName : Str := strL ("Content-Security-Policy")
def scriptSrcLit : Str := strL ("script-src")
def styleSrcLit : Str := strL ("style-src")
def scriptTag : Str := strL ("script")
def styleTag : Str := strL ("style")
def linkTag : Str := strL ("link")
def metaTag : Str := strL ("meta")
def stylesheetLit : Str := strL ("stylesheet")

/-- The replacement text `` `nonce-${nonce}` ``. -/
def nonceRepl (nonce : Str) : Str := nonceLit ++ '-' :: nonce

/-! ## parseCSP

`function parseCSP(csp) { const parts = csp.split(';'); const result = {};
parts.forEach((part) => { const [directive, ...values] = part.trim().split(' ');
result[directive] = values.join(' '); }); return result; }`

(identical in both source files).  The JavaScript object `result` is embedded
as an association list in key-insertion order where assigning to an existing
key updates it in place. -/

/-- `const [directive, ...values] = part.trim().split(' ')` paired with
`values.join(' ')`. -/
def segKV (part : Str) : Str × Str :=
  match splitOnChar ' ' (trimStr part) with
  | [] => ([], [])
  | d :: vs => (d, joinSep [' '] vs)

/-- JavaScript object property assignment `result[k] = v` on an association
list: overwrite in place if the key exists, else append. -/
def jsSet (m : List (Str × Str)) (k v : Str) : List (Str × Str) :=
  match m with
  | [] => [(k, v)]
  | (k0, v0) :: rest => if k0 = k then (k0, v) :: rest else (k0, v0) :: jsSet rest k v

/-- JavaScript object property read `m[k]` (`undefined` as `none`). -/
def jsLookup (m : List (Str × Str)) (k : Str) : Option Str :=
  match m with
  | [] => none
  | (k0, v0) :: rest => if k0 = k then some v0 else jsLookup rest k

def parseCSP (csp : Str) : List (Str × Str) :=
  (splitOnChar ';' csp).foldl
    (fun result part => jsSet result (segKV part).1 (segKV part).2) []

/-- `parsedCSP['script-src']?.includes('nonce')` under `||=` with a `false`
initial value: an absent directive contributes `false`. -/
def dirHasNonce (csp : Str) (dir : Str) : Bool :=
  match jsLookup (parseCSP csp) dir with
  | none => false
  | some v => includesSub nonceLit v

/-- `shouldApplyNonce` (tree module): the script/style nonce-requirement
flags of one raw policy string. -/
def shouldApplyNonce (csp : Str) : Bool × Bool :=
  (dirHasNonce csp scriptSrcLit, dirHasNonce csp styleSrcLit)

/-! ## hast trees

Element properties carry exactly the fields the two sources touch:
`httpEquiv` (first token of the `http-equiv` attribute), `content`,
`keep-as-meta`, `nonce` and `rel` (hast stores `rel` as a token list).
A numeric `id` on each element models JavaScript object identity, so that
"mutate this found node" and `remove(tree, null, node)` become id-directed
tree rewrites. -/

structure Props where
  httpEquiv : Option Str := none
  content : Str := []
  keepAsMeta : Bool := false
  nonce : Option Str := none
  rel : List Str := []
deriving DecidableEq

mutual
inductive HNode where
  | element (id : Nat) (tag : Str) (props : Props) (children : Forest)
  | text (s : Str)
deriving DecidableEq
inductive Forest where
  | nil
  | cons (n : HNode) (f : Forest)
deriving DecidableEq
end

/-- Build a forest from a list of nodes (concrete-example helper). -/
def forestOf : List HNode → Forest
  | [] => .nil
  | n :: ns => .cons n (forestOf ns)

/-- One element occurrence in a tree: its id, tag and properties. -/
structure Elem where
  id : Nat
  tag : Str
  props : Props
deriving DecidableEq

mutual
/-- All element occurrences of a node, in document (preorder) order. -/
def elemsN : HNode → List Elem
  | .text _ => []
  | .element i t pr cs => ⟨i, t, pr⟩ :: elemsF cs
/-- All element occurrences of a forest, in document (preorder) order. -/
def elemsF : Forest → List Elem
  | .nil => []
  | .cons n f => elemsN n ++ elemsF f
end

/-- The element occurrences of the forest's top-level (direct-child) nodes
only, in order. -/
def elemsTop : Forest → List Elem
  | .nil => []
  | .cons (.text _) f => elemsTop f
  | .cons (.element i t pr _) f => ⟨i, t, pr⟩ :: elemsTop f

/-- Well-formedness: element ids are distinct (object references are
distinct objects). -/
def wfForest (f : Forest) : Prop := ((elemsF f).map Elem.id).Nodup

mutual
/-- `select(selector, node)` of `hast-util-select`: first element matching
the predicate, in preorder. -/
def selNode (p : Str → Props → Bool) : HNode → Option Elem
  | .text _ => none
  | .element i t pr cs =>
    if p t pr then some ⟨i, t, pr⟩ else selForest p cs
/-- `select(selector, tree)` over a forest of root children. -/
def selForest (p : Str → Props → Bool) : Forest → Option Elem
  | .nil => none
  | .cons n f =>
    match selNode p n with
    | some e => some e
    | none => selForest p f
end

mutual
/-- Rewrite every element's properties in place (`selectAll(...).forEach`
stamping and direct property assignment are instances). -/
def mapPropsN (g : Nat → Str → Props → Props) : HNode → HNode
  | .text s => .text s
  | .element i t pr cs => .element i t (g i t pr) (mapPropsF g cs)
def mapPropsF (g : Nat → Str → Props → Props) : Forest → Forest
  | .nil => .nil
  | .cons n f => .cons (mapPropsN g n) (mapPropsF g f)
end

/-- Rewrite only the top-level elements' properties
(`head.children.forEach((el) => ...)` of render.js). -/
def mapPropsTop (g : Nat → Str → Props → Props) : Forest → Forest
  | .nil => .nil
  | .cons (.text s) f => .cons (.text s) (mapPropsTop g f)
  | .cons (.element i t pr cs) f => .cons (.element i t (g i t pr) cs) (mapPropsTop g f)

mutual
/-- `remove(tree, null, node)` of `unist-util-remove` directed by the node's
id, with the default `cascade` behaviour: a parent whose children were
non-empty but were all removed is removed as well.  Returns `none` when the
node itself is removed. -/
def remNode (mid : Nat) : HNode → Option HNode
  | .text s => some (.text s)
  | .element i t pr cs =>
    if i = mid then none
    else
      let cs' := remForest mid cs
      if cs ≠ .nil ∧ cs' = .nil then none else some (.element i t pr cs')
def remForest (mid : Nat) : Forest → Forest
  | .nil => .nil
  | .cons n f =>
    match remNode mid n with
    | some n' => .cons n' (remForest mid f)
    | none => remForest mid f
end

/-! ## The response object -/

structure Response where
  headers : List (Str × Str)
  body : Str
deriving DecidableEq

/-- `res.headers.get(name)` (names stored normalised, exact lookup). -/
def getHeader (res : Response) (name : Str) : Option Str :=
  jsLookup res.headers name

def setAssoc (m : List (Str × Str)) (k v : Str) : List (Str × Str) :=
  match m with
  | [] => [(k, v)]
  | (k0, v0) :: rest => if k0 = k then (k0, v) :: rest else (k0, v0) :: setAssoc rest k v

/-- `res.headers.set(name, value)`. -/
def setHeader (res : Response) (name v : Str) : Response :=
  { res with headers := setAssoc res.headers name v }

/-- JavaScript truthiness of a nullable string: `null`/`undefined` and the
empty string are falsy. -/
def truthyS : Option Str → Bool
  | none => false
  | some s => s ≠ []


/-! ### The property rewrites used by nonce injection and promotion -/

/-- `metaCSP.properties.content = metaCSP.properties.content.replaceAll('nonce', `nonce-${nonce}`)`
directed at the node with the given identity. -/
def gContent (mid : Nat) (nonce : Str) : Nat → Str → Props → Props :=
  fun i _ pr =>
    if i = mid then
      { pr with content := replaceAllStr nonceLit (nonceRepl nonce) pr.content }
    else pr

/-- Stamping of `script` elements. -/
def gScript (nonce : Str) : Nat → Str → Props → Props :=
  fun _ t pr => if t = scriptTag then { pr with nonce := some nonce } else pr

/-- Stamping of `style` elements. -/
def gStyle (nonce : Str) : Nat → Str → Props → Props :=
  fun _ t pr => if t = styleTag then { pr with nonce := some nonce } else pr

/-- Stamping of `link[rel=stylesheet]` elements (exact attribute match, as
the `hast-util-select` selector of the tree module requires). -/
def gLinkExact (nonce : Str) : Nat → Str → Props → Props :=
  fun _ t pr =>
    if t = linkTag ∧ pr.rel = [stylesheetLit] then { pr with nonce := some nonce } else pr

/-- Stamping of `style` elements and of `link` elements whose first `rel`
token is `stylesheet` (one combined pass, as render.js does). -/
def gStyleLinkHead (nonce : Str) : Nat → Str → Props → Props :=
  fun _ t pr =>
    if t = styleTag ∨ (t = linkTag ∧ pr.rel.head? = some stylesheetLit) then
      { pr with nonce := some nonce }
    else pr

/-- `delete metaCSP.properties['keep-as-meta']` directed at the node with the
given identity. -/
def gKeepFalse (mid : Nat) : Nat → Str → Props → Props :=
  fun i _ pr => if i = mid then { pr with keepAsMeta := false } else pr

/-! ## The tree-based implementation (`src/unnamed/part_000`)

`getMetaCSP` tries the selector with the all-lowercase `http-equiv` value
first and only then the `Content-Security-Policy` casing; each `select` call
returns the first preorder match of its exact attribute value. -/

def getMetaCSPTree (tree : Forest) : Option Elem :=
  match selForest (fun t pr => decide (t = metaTag ∧ pr.httpEquiv = some cspName)) tree with
  | some e => some e
  | none =>
    selForest (fun t pr => decide (t = metaTag ∧ pr.httpEquiv = some cspCapName)) tree

/-- `createAndApplyNonce(res, tree, metaCSP, headersCSP)` of the tree module:
read the nonce-requirement flags of each present source, rewrite each present
policy text, then stamp all descendant `script` elements and afterwards all
descendant `style` and `link[rel=stylesheet]` elements. -/
def createAndApplyNonceTree (nonce : Str) (res : Response) (tree : Forest)
    (metaCSP : Option Elem) (headersCSP : Option Str) : Response × Forest :=
  let scriptNonce1 := match metaCSP with
    | some e => (shouldApplyNonce e.props.content).1
    | none => false
  let styleNonce1 := match metaCSP with
    | some e => (shouldApplyNonce e.props.content).2
    | none => false
  let tree1 := match metaCSP with
    | some e => mapPropsF (gContent e.id nonce) tree
    | none => tree
  let hdrOn := truthyS headersCSP
  let h := headersCSP.getD []
  let scriptNonce := scriptNonce1 || (hdrOn && (shouldApplyNonce h).1)
  let styleNonce := styleNonce1 || (hdrOn && (shouldApplyNonce h).2)
  let res1 := if hdrOn then
      setHeader res cspName (replaceAllStr nonceLit (nonceRepl nonce) h)
    else res
  let tree2 := if scriptNonce then mapPropsF (gScript nonce) tree1 else tree1
  let tree3 := if styleNonce then
      mapPropsF (gLinkExact nonce) (mapPropsF (gStyle nonce) tree2)
    else tree2
  (res1, tree3)

/-- `contentSecurityPolicy(res, tree)` of the tree module. -/
def contentSecurityPolicyTree (nonce : Str) (res : Response) (tree : Forest) :
    Response × Forest :=
  let metaCSP := getMetaCSPTree tree
  let headersCSP := getHeader res cspName
  if metaCSP = none ∧ ¬ truthyS headersCSP then (res, tree)
  else
    let nonceCond :=
      (match metaCSP with
        | some e => includesSub nonceLit e.props.content
        | none => false)
      || (truthyS headersCSP && includesSub nonceLit (headersCSP.getD []))
    let rt := if nonceCond then createAndApplyNonceTree nonce res tree metaCSP headersCSP
      else (res, tree)
    match metaCSP with
    | some e =>
      if ¬ truthyS headersCSP then
        if ¬ e.props.keepAsMeta then
          let c1 := if nonceCond then replaceAllStr nonceLit (nonceRepl nonce) e.props.content
            else e.props.content
          (setHeader rt.1 cspName c1, remForest e.id rt.2)
        else
          (rt.1, mapPropsF (gKeepFalse e.id) rt.2)
      else rt
    | none => rt

/-! ## The head-fragment implementation (`src/src/steps/render.js`)

The meta element is looked up by `head.children.find` with a case-insensitive
comparison of the first `http-equiv` token, and nonce stamping touches only
the direct children of the head fragment root. -/

def getMetaCSPHead : Forest → Option Elem
  | .nil => none
  | .cons (.text _) f => getMetaCSPHead f
  | .cons (.element i t pr _) f =>
    if t = metaTag ∧ pr.httpEquiv.map lowerStr = some cspName then some ⟨i, t, pr⟩
    else getMetaCSPHead f

/-- `createAndApplyNonce(res, head, metaCSP, headersCSP)` of render.js. -/
def createAndApplyNonceHead (nonce : Str) (res : Response) (head : Forest)
    (metaCSP : Option Elem) (headersCSP : Option Str) : Response × Forest :=
  let scriptNonce1 := match metaCSP with
    | some e => dirHasNonce e.props.content scriptSrcLit
    | none => false
  let styleNonce1 := match metaCSP with
    | some e => dirHasNonce e.props.content styleSrcLit
    | none => false
  let tree1 := match metaCSP with
    | some e => mapPropsF (gContent e.id nonce) head
    | none => head
  let hdrOn := truthyS headersCSP
  let h := headersCSP.getD []
  let scriptNonce := scriptNonce1 || (hdrOn && dirHasNonce h scriptSrcLit)
  let styleNonce := styleNonce1 || (hdrOn && dirHasNonce h styleSrcLit)
  let res1 := if hdrOn then
      setHeader res cspName (replaceAllStr nonceLit (nonceRepl nonce) h)
    else res
  let tree2 := if scriptNonce then mapPropsTop (gScript nonce) tree1 else tree1
  let tree3 := if styleNonce then mapPropsTop (gStyleLinkHead nonce) tree2 else tree2
  (res1, tree3)

/-- `contentSecurityPolicy(res, head)` of render.js. -/
def contentSecurityPolicyHead (nonce : Str) (res : Response) (head : Forest) :
    Response × Forest :=
  let metaCSP := getMetaCSPHead head
  let headersCSP := getHeader res cspName
  if metaCSP = none ∧ ¬ truthyS headersCSP then (res, head)
  else
    let nonceCond :=
      (match metaCSP with
        | some e => includesSub nonceLit e.props.content
        | none => false)
      || (truthyS headersCSP && includesSub nonceLit (headersCSP.getD []))
    let rt := if nonceCond then createAndApplyNonceHead nonce res head metaCSP headersCSP
      else (res, head)
    match metaCSP with
    | some e =>
      if ¬ truthyS headersCSP then
        if ¬ e.props.keepAsMeta then
          let c1 := if nonceCond then replaceAllStr nonceLit (nonceRepl nonce) e.props.content
            else e.props.content
          (setHeader rt.1 cspName c1, remForest e.id rt.2)
        else
          (rt.1, mapPropsF (gKeepFalse e.id) rt.2)
      else rt
    | none => rt

/-! ## Derived notions used by the claims -/

/-- The OR-combined script nonce-requirement flag of the two present
sources (`scriptNonceResult` after both conditional blocks). -/
def scriptFlag (metaCSP : Option Elem) (hdr : Option Str) : Bool :=
  (match metaCSP with
    | some e => dirHasNonce e.props.content scriptSrcLit
    | none => false)
  || (truthyS hdr && dirHasNonce (hdr.getD []) scriptSrcLit)

/-- The OR-combined style nonce-requirement flag. -/
def styleFlag (metaCSP : Option Elem) (hdr : Option Str) : Bool :=
  (match metaCSP with
    | some e => dirHasNonce e.props.content styleSrcLit
    | none => false)
  || (truthyS hdr && dirHasNonce (hdr.getD []) styleSrcLit)

/-- The guard of the nonce-injection branch: some present representation's
raw text contains the substring `nonce`. -/
def nonceCondOf (metaCSP : Option Elem) (hdr : Option Str) : Bool :=
  (match metaCSP with
    | some e => includesSub nonceLit e.props.content
    | none => false)
  || (truthyS hdr && includesSub nonceLit (hdr.getD []))

/-- The generated nonce value does not already occur as a `nonce` attribute
anywhere in the tree (guaranteed by cryptographic randomness). -/
def freshNonce (v : Str) (f : Forest) : Prop :=
  ∀ e ∈ elemsF f, e.props.nonce ≠ some v

/-- Freshness restricted to the direct children of the root. -/
def freshNonceTop (v : Str) (f : Forest) : Prop :=
  ∀ e ∈ elemsTop f, e.props.nonce ≠ some v

/-- The element occurrences strictly below the root's direct children. -/
def elemsBelowTop : Forest → List Elem
  | .nil => []
  | .cons (.text _) f => elemsBelowTop f
  | .cons (.element _ _ _ cs) f => elemsF cs ++ elemsBelowTop f

/-- Claim-side reading of C7: the first element in document order whose
`http-equiv` equals `content-security-policy` case-insensitively. -/
def firstMetaCaseInsensitive (f : Forest) : Option Elem :=
  (elemsF f).find?
    (fun e => decide (e.tag = metaTag ∧ e.props.httpEquiv.map lowerStr = some cspName))

/-- Fold a list of directive pairs into a JavaScript-object association
list (later duplicates overwrite earlier ones in place). -/
def foldPairs (acc : List (Str × Str)) (ps : List (Str × Str)) : List (Str × Str) :=
  ps.foldl (fun m kv => jsSet m kv.1 kv.2) acc

/-- Maximal whitespace-delimited words of a string (used by the claim-side
reading of C8, which says segments are "split on whitespace"). -/
def wordsWsGo (acc : Str) : Str → List Str
  | [] => if acc = [] then [] else [acc.reverse]
  | x :: xs =>
    if isJsWs x then
      (if acc = [] then wordsWsGo [] xs else acc.reverse :: wordsWsGo [] xs)
    else wordsWsGo (x :: acc) xs

def wordsWs (s : Str) : List Str := wordsWsGo [] s

/-- Claim-side reading of C8, word for word: split on `;`; for each
non-empty trimmed segment split on whitespace; first token is the directive
name, the remaining tokens rejoined with single spaces are the value; empty
segments contribute no entry. -/
def parseCSPClaimed (csp : Str) : List (Str × Str) :=
  (splitOnChar ';' csp).foldl
    (fun m part =>
      if trimStr part = [] then m
      else
        match wordsWs (trimStr part) with
        | [] => m
        | d :: vs => jsSet m d (joinSep [' '] vs)) []

/-- The amended description of `parseCSP`: split on `;`; trim each segment
and split it on the space character; the first token (possibly empty) is the
directive name and the remaining tokens rejoined with single spaces are the
value; every segment contributes an entry (an empty segment contributes the
entry with empty name and empty value); later duplicates overwrite. -/
def parseCSPAmended (csp : Str) : List (Str × Str) :=
  foldPairs [] ((splitOnChar ';' csp).map segKV)

/-- Claim-side reconstruction of a policy text from a parsed mapping
(directive + `" "` + value, joined by `"; "`). -/
def reconstructCSP (m : List (Str × Str)) : Str :=
  joinSep (strL ("; ")) (m.map (fun kv => kv.1 ++ ' ' :: kv.2))

/-! ## Concrete fixtures for counterexamples and witnesses -/

def vW : Str := strL ("V")

def rEmpty : Response := { headers := [], body := strL ("body") }

def rCspOf (v : Str) : Response := { headers := [(cspName, v)], body := strL ("body") }

/-- A head fragment whose only script sits nested below a direct child. -/
def cexNestedTree : Forest :=
  forestOf [.element 1 (strL ("div")) {} (forestOf [.element 2 scriptTag {} .nil])]

/-- Two meta CSP elements: the `Content-Security-Policy` casing first in
document order, the lowercase casing second. -/
def cexCaseTree : Forest :=
  forestOf
    [.element 1 metaTag { httpEquiv := some cspCapName, content := strL ("a") } .nil,
     .element 2 metaTag { httpEquiv := some cspName, content := strL ("b") } .nil]

/-- A meta CSP element in all-caps casing only. -/
def cexCapsTree : Forest :=
  forestOf
    [.element 1 metaTag
      { httpEquiv := some (strL ("CONTENT-SECURITY-POLICY")), content := strL ("a") } .nil]

/-- A stylesheet link whose `rel` list carries a second token. -/
def cexRelTree : Forest :=
  forestOf [.element 1 linkTag { rel := [stylesheetLit, strL ("preload")] } .nil]

/-- A meta CSP element carrying `keep-as-meta`. -/
def cexKeepTree : Forest :=
  forestOf
    [.element 1 metaTag
      { httpEquiv := some cspName, content := strL ("x"), keepAsMeta := true } .nil]

/-- A meta CSP element without `keep-as-meta` and without a nonce keyword. -/
def cexPlainMetaTree : Forest :=
  forestOf
    [.element 1 metaTag { httpEquiv := some cspName, content := strL ("default-src a") } .nil]

/-- A meta CSP element requesting a script nonce, plus one script, one style,
one stylesheet link and one nested script. -/
def witScriptTree : Forest :=
  forestOf
    [.element 1 metaTag
      { httpEquiv := some cspName, content := strL ("default-src 'self'; script-src 'nonce'") }
      .nil,
     .element 2 scriptTag {} .nil,
     .element 3 styleTag {} .nil,
     .element 4 linkTag { rel := [stylesheetLit] } .nil]


/-! ## Lemmas about the string primitives -/

theorem splitOnChar_ne_nil (c : Char) (s : Str) : splitOnChar c s ≠ [] := by
  cases s with
  | nil => simp [splitOnChar]
  | cons x xs =>
    rw [splitOnChar]
    cases h : splitOnChar c xs with
    | nil => simp
    | cons h1 t1 =>
      show (if x = c then [] :: h1 :: t1 else (x :: h1) :: t1) ≠ []
      split <;> simp

theorem splitOnChar_cons_eq (c x : Char) (xs : Str) :
    ∃ h1 t1, splitOnChar c xs = h1 :: t1 ∧
      splitOnChar c (x :: xs) =
        (if x = c then [] :: h1 :: t1 else (x :: h1) :: t1) := by
  cases h : splitOnChar c xs with
  | nil => exact absurd h (splitOnChar_ne_nil c xs)
  | cons h1 t1 =>
    refine ⟨h1, t1, rfl, ?_⟩
    rw [splitOnChar, h]

theorem not_mem_of_mem_splitOnChar {c : Char} {s t : Str}
    (ht : t ∈ splitOnChar c s) : c ∉ t := by
  induction s generalizing t with
  | nil =>
    simp only [splitOnChar, List.mem_singleton] at ht
    subst ht; simp
  | cons x xs ih =>
    obtain ⟨h1, t1, hsplit, heq⟩ := splitOnChar_cons_eq c x xs
    rw [heq] at ht
    by_cases hx : x = c
    · rw [if_pos hx] at ht
      rcases List.mem_cons.mp ht with rfl | ht'
      · simp
      · exact ih (hsplit ▸ ht')
    · rw [if_neg hx] at ht
      rcases List.mem_cons.mp ht with rfl | ht'
      · have hh1 : c ∉ h1 := ih (hsplit ▸ List.mem_cons_self _ _)
        simp only [List.mem_cons, not_or]
        exact ⟨fun hcx => hx hcx.symm, hh1⟩
      · exact ih (hsplit ▸ List.mem_cons_of_mem _ ht')

theorem joinSep_splitOnChar (c : Char) (s : Str) :
    joinSep [c] (splitOnChar c s) = s := by
  induction s with
  | nil => rfl
  | cons x xs ih =>
    obtain ⟨h1, t1, hsplit, heq⟩ := splitOnChar_cons_eq c x xs
    rw [hsplit] at ih
    rw [heq]
    by_cases hx : x = c
    · subst hx
      rw [if_pos rfl]
      simpa [joinSep] using ih
    · rw [if_neg hx]
      cases t1 with
      | nil => simpa [joinSep] using ih
      | cons y t2 =>
        simp only [joinSep, List.cons_append, List.nil_append] at ih ⊢
        rw [← ih]

theorem splitOnChar_of_not_mem {c : Char} {s : Str} (h : c ∉ s) :
    splitOnChar c s = [s] := by
  induction s with
  | nil => rfl
  | cons x xs ih =>
    simp only [List.mem_cons, not_or] at h
    obtain ⟨h1, t1, hsplit, heq⟩ := splitOnChar_cons_eq c x xs
    rw [ih h.2] at hsplit
    cases hsplit
    rw [heq, if_neg (fun hxc => h.1 hxc.symm)]

theorem splitOnChar_append {c : Char} {a : Str} (b : Str) (h : c ∉ a) :
    splitOnChar c (a ++ c :: b) = a :: splitOnChar c b := by
  induction a with
  | nil =>
    rw [List.nil_append]
    obtain ⟨h1, t1, hsplit, heq⟩ := splitOnChar_cons_eq c c b
    rw [heq, if_pos rfl, hsplit]
  | cons x a' ih =>
    simp only [List.mem_cons, not_or] at h
    rw [List.cons_append]
    obtain ⟨h1, t1, hsplit, heq⟩ := splitOnChar_cons_eq c x (a' ++ c :: b)
    rw [ih h.2] at hsplit
    cases hsplit
    rw [heq, if_neg (fun hxc => h.1 hxc.symm)]

theorem trimStr_eq_rdrop (s : Str) :
    trimStr s = List.rdropWhile isJsWs (s.dropWhile isJsWs) := rfl

theorem dropWhile_fix_of_prefix {p : Char → Bool} {l l' : Str}
    (hfix : List.dropWhile p l = l) (hpre : l' <+: l) :
    List.dropWhile p l' = l' := by
  obtain ⟨t, rfl⟩ := hpre
  cases l' with
  | nil => rfl
  | cons a l'' =>
    rw [List.cons_append, List.dropWhile_cons] at hfix
    by_cases hpa : p a
    · rw [if_pos hpa] at hfix
      have hle := (List.dropWhile_suffix (l := l'' ++ t) p).sublist.length_le
      rw [hfix] at hle
      simp at hle
    · rw [List.dropWhile_cons, if_neg hpa]

theorem trimStr_cons_ws {x : Char} (s : Str) (h : isJsWs x = true) :
    trimStr (x :: s) = trimStr s := by
  simp [trimStr, List.dropWhile_cons, h]

theorem trimStr_concat_ws {x : Char} (s : Str) (h : isJsWs x = true) :
    trimStr (s ++ [x]) = trimStr s := by
  rw [trimStr_eq_rdrop, trimStr_eq_rdrop]
  cases hu : List.dropWhile isJsWs s with
  | nil =>
    have : List.dropWhile isJsWs (s ++ [x]) = [] := by
      rw [List.dropWhile_append]
      simp [hu, List.dropWhile_cons, h]
    simp [this]
  | cons a u' =>
    have : List.dropWhile isJsWs (s ++ [x]) = (a :: u') ++ [x] := by
      rw [List.dropWhile_append]
      simp [hu]
    rw [this, List.rdropWhile_concat_pos _ _ _ h]

theorem trimStr_idem (s : Str) : trimStr (trimStr s) = trimStr s := by
  rw [trimStr_eq_rdrop s, trimStr_eq_rdrop]
  have hfix : List.dropWhile isJsWs (List.dropWhile isJsWs s) =
      List.dropWhile isJsWs s := List.dropWhile_idempotent _ _
  have hdw : List.dropWhile isJsWs
      (List.rdropWhile isJsWs (List.dropWhile isJsWs s)) =
      List.rdropWhile isJsWs (List.dropWhile isJsWs s) :=
    dropWhile_fix_of_prefix hfix (List.rdropWhile_prefix _ _)
  rw [hdw, List.rdropWhile_idempotent]

theorem mem_of_mem_trimStr {c : Char} {s : Str} (h : c ∈ trimStr s) : c ∈ s := by
  rw [trimStr_eq_rdrop] at h
  have h1 := (List.rdropWhile_prefix isJsWs (s.dropWhile isJsWs)).sublist.mem h
  exact (List.dropWhile_suffix isJsWs).sublist.mem h1

theorem trimStr_head_not_ws {x : Char} {s xs : Str} (h : trimStr s = x :: xs) :
    isJsWs x = false := by
  rw [trimStr_eq_rdrop] at h
  have hpre := List.rdropWhile_prefix isJsWs (s.dropWhile isJsWs)
  rw [h] at hpre
  obtain ⟨t, ht⟩ := hpre
  have hfix : List.dropWhile isJsWs (List.dropWhile isJsWs s) =
      List.dropWhile isJsWs s := List.dropWhile_idempotent _ _
  rw [← ht, List.cons_append, List.dropWhile_cons] at hfix
  by_cases hpa : isJsWs x
  · rw [if_pos hpa] at hfix
    have hle := (List.dropWhile_suffix (l := xs ++ t) isJsWs).sublist.length_le
    rw [hfix] at hle
    simp at hle
  · exact eq_false_of_ne_true hpa

/-! ## Lemmas about `segKV` and parsed directive pairs -/

theorem segKV_trim (part : Str) : segKV (trimStr part) = segKV part := by
  simp [segKV, trimStr_idem]

theorem isJsWs_space : isJsWs ' ' = true := by decide

theorem segKV_cons_space (s : Str) : segKV (' ' :: s) = segKV s := by
  simp [segKV, trimStr_cons_ws _ isJsWs_space]

theorem segKV_eq (part : Str) : ∃ d vs, splitOnChar ' ' (trimStr part) = d :: vs ∧
    segKV part = (d, joinSep [' '] vs) := by
  cases h : splitOnChar ' ' (trimStr part) with
  | nil => exact absurd h (splitOnChar_ne_nil _ _)
  | cons d vs =>
    refine ⟨d, vs, rfl, ?_⟩
    unfold segKV
    rw [h]

theorem segKV_key_no_space (part : Str) : ' ' ∉ (segKV part).1 := by
  obtain ⟨d, vs, hs, he⟩ := segKV_eq part
  rw [he]
  exact not_mem_of_mem_splitOnChar (hs ▸ List.mem_cons_self _ _)

theorem segKV_shape (part : Str) :
    trimStr part = (segKV part).1 ++ ' ' :: (segKV part).2 ∨
      ((segKV part).2 = [] ∧ trimStr part = (segKV part).1) := by
  obtain ⟨d, vs, hs, he⟩ := segKV_eq part
  have hj := joinSep_splitOnChar ' ' (trimStr part)
  rw [hs] at hj
  rw [he]
  cases vs with
  | nil =>
    right
    exact ⟨rfl, by simpa [joinSep] using hj.symm⟩
  | cons v vs' =>
    left
    simp only [joinSep] at hj ⊢
    simpa using hj.symm

/-- The invariant carried by every entry a parse can produce: it is the
key/value reading of some trimmed, `;`-free segment. -/
def IsGoodKV (k v : Str) : Prop :=
  ∃ t, trimStr t = t ∧ ';' ∉ t ∧ segKV t = (k, v)

theorem isGoodKV_of_seg {part : Str} (hns : ';' ∉ part) :
    IsGoodKV (segKV part).1 (segKV part).2 :=
  ⟨trimStr part, trimStr_idem part, fun hc => hns (mem_of_mem_trimStr hc), by
    rw [segKV_trim]⟩

theorem isGoodKV_no_semi {k v : Str} (h : IsGoodKV k v) : ';' ∉ k ∧ ';' ∉ v := by
  obtain ⟨t, htrim, hns, hseg⟩ := h
  have hshape := segKV_shape t
  rw [hseg, htrim] at hshape
  rcases hshape with hsh | ⟨hv, hsh⟩
  · constructor
    · exact fun hc => hns (hsh ▸ List.mem_append_left _ hc)
    · exact fun hc => hns (hsh ▸ List.mem_append_right _ (List.mem_cons_of_mem _ hc))
  · have hv' : v = [] := hv
    have hsh' : t = k := hsh
    constructor
    · exact fun hc => hns (hsh' ▸ hc)
    · rw [hv']; simp

theorem isGoodKV_roundtrip {k v : Str} (h : IsGoodKV k v) :
    segKV (k ++ ' ' :: v) = (k, v) := by
  obtain ⟨t, htrim, hns, hseg⟩ := h
  have hksp : ' ' ∉ k := by
    have := segKV_key_no_space t
    rw [hseg] at this
    exact this
  have hshape := segKV_shape t
  rw [hseg, htrim] at hshape
  rcases hshape with hsh | ⟨hv, hsh⟩
  · rw [← hsh, ← htrim, segKV_trim, hseg]
  · have hv' : v = [] := hv
    have hsh' : t = k := hsh
    subst hv'
    subst hsh'
    have htrim2 : trimStr (t ++ [' ']) = t := by
      rw [trimStr_concat_ws _ isJsWs_space, htrim]
    unfold segKV
    rw [htrim2, splitOnChar_of_not_mem hksp]
    rfl

/-! ## Lemmas about JavaScript-object assignment and parse folding -/

theorem jsSet_ne_nil (m : List (Str × Str)) (k v : Str) : jsSet m k v ≠ [] := by
  cases m with
  | nil => simp [jsSet]
  | cons kv rest =>
    obtain ⟨k0, v0⟩ := kv
    rw [jsSet]
    split <;> simp

theorem jsSet_mem {m : List (Str × Str)} {k v : Str} {x : Str × Str}
    (hx : x ∈ jsSet m k v) : x ∈ m ∨ x = (k, v) := by
  induction m with
  | nil =>
    rw [jsSet] at hx
    right
    simpa using hx
  | cons kv rest ih =>
    obtain ⟨k0, v0⟩ := kv
    rw [jsSet] at hx
    by_cases hk : k0 = k
    · rw [if_pos hk] at hx
      rcases List.mem_cons.mp hx with rfl | h
      · right; rw [hk]
      · left; exact List.mem_cons_of_mem _ h
    · rw [if_neg hk] at hx
      rcases List.mem_cons.mp hx with rfl | h
      · left; exact List.mem_cons_self _ _
      · rcases ih h with h' | h'
        · left; exact List.mem_cons_of_mem _ h'
        · right; exact h'

theorem jsSet_keys (m : List (Str × Str)) (k v : Str) :
    (jsSet m k v).map Prod.fst =
      if k ∈ m.map Prod.fst then m.map Prod.fst else m.map Prod.fst ++ [k] := by
  induction m with
  | nil => simp [jsSet]
  | cons kv rest ih =>
    obtain ⟨k0, v0⟩ := kv
    rw [jsSet]
    by_cases hk : k0 = k
    · subst hk
      simp
    · rw [if_neg hk]
      simp only [List.map_cons, ih]
      by_cases hmem : k ∈ rest.map Prod.fst
      · have hm2 : k ∈ k0 :: rest.map Prod.fst := List.mem_cons_of_mem _ hmem
        simp [hmem, hm2]
      · have hm2 : k ∉ k0 :: rest.map Prod.fst := by
          simp only [List.mem_cons, not_or]
          exact ⟨fun h => hk h.symm, hmem⟩
        simp [hmem, hm2]

theorem jsSet_append_of_not_mem {m : List (Str × Str)} {k : Str}
    (h : k ∉ m.map Prod.fst) (v : Str) : jsSet m k v = m ++ [(k, v)] := by
  induction m with
  | nil => rfl
  | cons kv rest ih =>
    obtain ⟨k0, v0⟩ := kv
    simp only [List.map_cons, List.mem_cons, not_or] at h
    rw [jsSet, if_neg (fun hh => h.1 hh.symm), ih h.2, List.cons_append]

theorem foldPairs_cons (acc : List (Str × Str)) (kv : Str × Str)
    (ps : List (Str × Str)) :
    foldPairs acc (kv :: ps) = foldPairs (jsSet acc kv.1 kv.2) ps := rfl

theorem mem_foldPairs {Q : Str × Str → Prop} :
    ∀ {ps acc : List (Str × Str)}, (∀ kv ∈ ps, Q kv) → (∀ kv ∈ acc, Q kv) →
      ∀ kv ∈ foldPairs acc ps, Q kv := by
  intro ps
  induction ps with
  | nil => exact fun _ hacc kv hkv => hacc kv hkv
  | cons p ps' ih =>
    intro acc hps hacc kv hkv
    rw [foldPairs_cons] at hkv
    refine ih (fun x hx => hps x (List.mem_cons_of_mem _ hx)) ?_ kv hkv
    intro x hx
    rcases jsSet_mem hx with h | h
    · exact hacc x h
    · subst h
      exact hps p (List.mem_cons_self _ _)

theorem foldPairs_ne_nil :
    ∀ {ps acc : List (Str × Str)}, acc ≠ [] → foldPairs acc ps ≠ [] := by
  intro ps
  induction ps with
  | nil => exact fun h => h
  | cons p ps' ih =>
    intro acc _
    rw [foldPairs_cons]
    exact ih (jsSet_ne_nil acc p.1 p.2)

theorem foldPairs_keys_nodup :
    ∀ {ps acc : List (Str × Str)}, (acc.map Prod.fst).Nodup →
      ((foldPairs acc ps).map Prod.fst).Nodup := by
  intro ps
  induction ps with
  | nil => exact fun h => h
  | cons p ps' ih =>
    intro acc hacc
    rw [foldPairs_cons]
    refine ih ?_
    rw [jsSet_keys]
    by_cases hmem : p.1 ∈ acc.map Prod.fst
    · simpa [hmem] using hacc
    · rw [if_neg hmem]
      simp [List.nodup_append, hacc, hmem]

theorem foldPairs_eq_append :
    ∀ {ps acc : List (Str × Str)}, (ps.map Prod.fst).Nodup →
      (∀ k ∈ ps.map Prod.fst, k ∉ acc.map Prod.fst) →
      foldPairs acc ps = acc ++ ps := by
  intro ps
  induction ps with
  | nil => simp [foldPairs]
  | cons p ps' ih =>
    intro acc hnd hdisj
    rw [foldPairs_cons,
      jsSet_append_of_not_mem (hdisj p.1 (by simp)) p.2]
    rw [List.map_cons, List.nodup_cons] at hnd
    have : foldPairs (acc ++ [p]) ps' = (acc ++ [p]) ++ ps' := by
      refine ih hnd.2 ?_
      intro k hk
      have hk2 : k ∈ (p :: ps').map Prod.fst := by
        rw [List.map_cons]
        exact List.mem_cons_of_mem _ hk
      intro hmem
      rw [List.map_append] at hmem
      rcases List.mem_append.mp hmem with hka | hkp
      · exact hdisj k hk2 hka
      · simp only [List.map_cons, List.map_nil, List.mem_singleton] at hkp
        subst hkp
        exact hnd.1 hk
    rw [this]
    simp

theorem parseCSP_eq_foldPairs (csp : Str) :
    parseCSP csp = foldPairs [] ((splitOnChar ';' csp).map segKV) := by
  rw [parseCSP, foldPairs, List.foldl_map]

theorem mem_parseCSP_good {csp : Str} {kv : Str × Str}
    (h : kv ∈ parseCSP csp) : IsGoodKV kv.1 kv.2 := by
  rw [parseCSP_eq_foldPairs] at h
  refine mem_foldPairs (Q := fun kv => IsGoodKV kv.1 kv.2) ?_ ?_ kv h
  · intro x hx
    obtain ⟨part, hpart, rfl⟩ := List.mem_map.mp hx
    exact isGoodKV_of_seg (not_mem_of_mem_splitOnChar hpart)
  · intro x hx
    simp at hx

theorem parseCSP_keys_nodup (csp : Str) :
    ((parseCSP csp).map Prod.fst).Nodup := by
  rw [parseCSP_eq_foldPairs]
  exact foldPairs_keys_nodup (by simp)

theorem parseCSP_ne_nil (csp : Str) : parseCSP csp ≠ [] := by
  rw [parseCSP_eq_foldPairs]
  cases h : (splitOnChar ';' csp).map segKV with
  | nil =>
    exact absurd (List.map_eq_nil_iff.mp h) (splitOnChar_ne_nil ';' csp)
  | cons p ps =>
    rw [foldPairs_cons]
    exact foldPairs_ne_nil (jsSet_ne_nil _ _ _)

/-! ## Round-trip of `parseCSP` through the claim-side reconstruction -/

theorem splitOnChar_joinSep_semispace :
    ∀ (e : Str) (es : List Str), (∀ x ∈ e :: es, ';' ∉ x) →
      splitOnChar ';' (joinSep (strL ("; ")) (e :: es)) =
        e :: es.map (fun s => ' ' :: s) := by
  intro e es
  induction es generalizing e with
  | nil =>
    intro h
    simp only [joinSep, List.map_nil]
    exact splitOnChar_of_not_mem (h e (List.mem_cons_self _ _))
  | cons e2 es' ih =>
    intro h
    have he : ';' ∉ e := h e (List.mem_cons_self _ _)
    have hrest : ∀ x ∈ e2 :: es', ';' ∉ x :=
      fun x hx => h x (List.mem_cons_of_mem _ hx)
    have hassoc : joinSep (strL ("; ")) (e :: e2 :: es') =
        e ++ ';' :: (' ' :: joinSep (strL ("; ")) (e2 :: es')) := by
      simp [joinSep, strL]
    rw [hassoc, splitOnChar_append _ he]
    obtain ⟨h1, t1, hs, heq⟩ :=
      splitOnChar_cons_eq ';' ' ' (joinSep (strL ("; ")) (e2 :: es'))
    rw [ih e2 hrest] at hs
    cases hs
    rw [heq, if_neg (by decide)]
    simp

theorem map_segKV_reconstruct {m : List (Str × Str)}
    (hg : ∀ kv ∈ m, IsGoodKV kv.1 kv.2) (hm : m ≠ []) :
    (splitOnChar ';' (reconstructCSP m)).map segKV = m := by
  obtain ⟨kv, m', rfl⟩ := List.exists_cons_of_ne_nil hm
  have hns : ∀ x ∈ (kv :: m').map (fun kv => kv.1 ++ ' ' :: kv.2), ';' ∉ x := by
    intro x hx
    obtain ⟨p, hp, rfl⟩ := List.mem_map.mp hx
    have := isGoodKV_no_semi (hg p hp)
    intro hc
    rcases List.mem_append.mp hc with hc | hc
    · exact this.1 hc
    · rcases List.mem_cons.mp hc with hc | hc
      · exact absurd hc.symm (by decide)
      · exact this.2 hc
  rw [reconstructCSP, List.map_cons, splitOnChar_joinSep_semispace _ _ (by
    simpa using hns)]
  rw [List.map_cons, List.map_map, List.map_map]
  have hhead : segKV (kv.1 ++ ' ' :: kv.2) = kv :=
    isGoodKV_roundtrip (hg kv (List.mem_cons_self _ _))
  rw [hhead]
  congr 1
  have : ∀ p ∈ m', (segKV ∘ (fun s => ' ' :: s) ∘ fun kv => kv.1 ++ ' ' :: kv.2) p = p := by
    intro p hp
    have h1 : segKV (' ' :: (p.1 ++ ' ' :: p.2)) = segKV (p.1 ++ ' ' :: p.2) :=
      segKV_cons_space _
    have h2 : segKV (p.1 ++ ' ' :: p.2) = p :=
      isGoodKV_roundtrip (hg p (List.mem_cons_of_mem _ hp))
    simp only [Function.comp]
    rw [h1, h2]
  calc m'.map (segKV ∘ (fun s => ' ' :: s) ∘ fun kv => kv.1 ++ ' ' :: kv.2)
      = m'.map id := List.map_congr_left this
    _ = m' := List.map_id m'

theorem parseCSP_roundtrip (s : Str) :
    parseCSP (reconstructCSP (parseCSP s)) = parseCSP s := by
  have hg : ∀ kv ∈ parseCSP s, IsGoodKV kv.1 kv.2 :=
    fun kv h => mem_parseCSP_good h
  rw [parseCSP_eq_foldPairs (reconstructCSP (parseCSP s)),
    map_segKV_reconstruct hg (parseCSP_ne_nil s),
    foldPairs_eq_append (parseCSP_keys_nodup s) (by simp)]
  simp

/-! ## Lemmas about the tree primitives -/

theorem elemsF_forestOf (ns : List HNode) :
    elemsF (forestOf ns) = ns.flatMap elemsN := by
  induction ns with
  | nil => rfl
  | cons n ns' ih => simp [forestOf, elemsF, ih]

mutual
theorem elemsN_mapPropsN (g : Nat → Str → Props → Props) :
    ∀ n, elemsN (mapPropsN g n) =
      (elemsN n).map (fun e => ⟨e.id, e.tag, g e.id e.tag e.props⟩)
  | .text s => rfl
  | .element i t pr cs => by
    simp [mapPropsN, elemsN, elemsF_mapPropsF g cs]
theorem elemsF_mapPropsF (g : Nat → Str → Props → Props) :
    ∀ f, elemsF (mapPropsF g f) =
      (elemsF f).map (fun e => ⟨e.id, e.tag, g e.id e.tag e.props⟩)
  | .nil => rfl
  | .cons n f => by
    simp [mapPropsF, elemsF, elemsN_mapPropsN g n, elemsF_mapPropsF g f]
end

theorem elemsTop_mapPropsTop (g : Nat → Str → Props → Props) :
    ∀ f, elemsTop (mapPropsTop g f) =
      (elemsTop f).map (fun e => ⟨e.id, e.tag, g e.id e.tag e.props⟩)
  | .nil => rfl
  | .cons (.text s) f => by
    simp [mapPropsTop, elemsTop, elemsTop_mapPropsTop g f]
  | .cons (.element i t pr cs) f => by
    simp [mapPropsTop, elemsTop, elemsTop_mapPropsTop g f]

theorem elemsTop_mapPropsF (g : Nat → Str → Props → Props) :
    ∀ f, elemsTop (mapPropsF g f) =
      (elemsTop f).map (fun e => ⟨e.id, e.tag, g e.id e.tag e.props⟩)
  | .nil => rfl
  | .cons (.text s) f => by
    simp [mapPropsF, mapPropsN, elemsTop, elemsTop_mapPropsF g f]
  | .cons (.element i t pr cs) f => by
    simp [mapPropsF, mapPropsN, elemsTop, elemsTop_mapPropsF g f]

theorem mem_elemsF_of_mem_elemsTop :
    ∀ {f : Forest} {e : Elem}, e ∈ elemsTop f → e ∈ elemsF f
  | .nil, e, h => absurd h (by simp [elemsTop])
  | .cons (.text s) f, e, h => List.mem_append_right _ (mem_elemsF_of_mem_elemsTop h)
  | .cons (.element i t pr cs) f, e, h => by
    rcases List.mem_cons.mp h with rfl | h'
    · exact List.mem_append_left _ (by simp [elemsN])
    · exact List.mem_append_right _ (mem_elemsF_of_mem_elemsTop h')

mutual
theorem mem_remNode {mid : Nat} :
    ∀ {n n' : HNode}, remNode mid n = some n' →
      ∀ e ∈ elemsN n', e ∈ elemsN n ∧ e.id ≠ mid
  | .text s, n', h => by
    rw [remNode] at h
    cases h
    intro e he
    exact absurd he (by simp [elemsN])
  | .element i t pr cs, n', h => by
    rw [remNode] at h
    by_cases hid : i = mid
    · rw [if_pos hid] at h
      cases h
    · rw [if_neg hid] at h
      by_cases hcasc : cs ≠ Forest.nil ∧ remForest mid cs = Forest.nil
      · rw [if_pos hcasc] at h
        cases h
      · rw [if_neg hcasc] at h
        cases h
        intro e he
        rw [elemsN] at he
        rcases List.mem_cons.mp he with rfl | he'
        · exact ⟨by simp [elemsN], hid⟩
        · have := mem_remForest he'
          exact ⟨List.mem_cons_of_mem _ this.1, this.2⟩
theorem mem_remForest {mid : Nat} :
    ∀ {f : Forest} {e : Elem}, e ∈ elemsF (remForest mid f) →
      e ∈ elemsF f ∧ e.id ≠ mid
  | .nil, e, h => by
    rw [remForest] at h
    exact absurd h (by simp [elemsF])
  | .cons n f, e, h => by
    rw [remForest] at h
    cases hn : remNode mid n with
    | some n' =>
      rw [hn] at h
      rw [elemsF] at h
      rcases List.mem_append.mp h with h' | h'
      · have := mem_remNode hn e h'
        exact ⟨List.mem_append_left _ this.1, this.2⟩
      · have := mem_remForest h'
        exact ⟨List.mem_append_right _ this.1, this.2⟩
    | none =>
      rw [hn] at h
      have := mem_remForest h
      exact ⟨List.mem_append_right _ this.1, this.2⟩
end

theorem mem_elemsTop_remForest {mid : Nat} :
    ∀ {f : Forest} {e : Elem}, e ∈ elemsTop (remForest mid f) →
      e ∈ elemsTop f ∧ e.id ≠ mid
  | .nil, e, h => absurd h (by simp [elemsTop, remForest])
  | .cons (.text s) f, e, h => by
    rw [remForest, remNode] at h
    rw [elemsTop] at h
    rw [elemsTop]
    exact mem_elemsTop_remForest h
  | .cons (.element i t pr cs) f, e, h => by
    rw [remForest, remNode] at h
    by_cases hid : i = mid
    · rw [if_pos hid] at h
      have := mem_elemsTop_remForest h
      exact ⟨List.mem_cons_of_mem _ this.1, this.2⟩
    · rw [if_neg hid] at h
      by_cases hcasc : cs ≠ Forest.nil ∧ remForest mid cs = Forest.nil
      · rw [if_pos hcasc] at h
        have := mem_elemsTop_remForest h
        exact ⟨List.mem_cons_of_mem _ this.1, this.2⟩
      · rw [if_neg hcasc] at h
        rw [elemsTop] at h
        rcases List.mem_cons.mp h with rfl | h'
        · exact ⟨List.mem_cons_self _ _, hid⟩
        · have := mem_elemsTop_remForest h'
          exact ⟨List.mem_cons_of_mem _ this.1, this.2⟩

mutual
theorem selNode_eq_find (p : Str → Props → Bool) :
    ∀ n, selNode p n = (elemsN n).find? (fun e => p e.tag e.props)
  | .text s => rfl
  | .element i t pr cs => by
    rw [selNode, elemsN]
    by_cases hp : p t pr
    · rw [if_pos hp]
      exact (List.find?_cons_of_pos (p := fun e => p e.tag e.props) (a := ⟨i, t, pr⟩) (elemsF cs) hp).symm
    · rw [if_neg hp, selForest_eq_find p cs]
      exact (List.find?_cons_of_neg (p := fun e => p e.tag e.props) (a := ⟨i, t, pr⟩) (elemsF cs) hp).symm
theorem selForest_eq_find (p : Str → Props → Bool) :
    ∀ f, selForest p f = (elemsF f).find? (fun e => p e.tag e.props)
  | .nil => rfl
  | .cons n f => by
    rw [selForest, elemsF, List.find?_append, selNode_eq_find p n,
      selForest_eq_find p f]
    cases (elemsN n).find? (fun e => p e.tag e.props) <;> rfl
end

/-! ## Lemmas about meta lookup and headers -/

theorem getMetaCSPTree_eq_find (f : Forest) :
    getMetaCSPTree f =
      ((elemsF f).find?
        (fun e => decide (e.tag = metaTag ∧ e.props.httpEquiv = some cspName))).or
      ((elemsF f).find?
        (fun e => decide (e.tag = metaTag ∧ e.props.httpEquiv = some cspCapName))) := by
  rw [getMetaCSPTree, selForest_eq_find, selForest_eq_find]
  cases (elemsF f).find?
      (fun e => decide (e.tag = metaTag ∧ e.props.httpEquiv = some cspName)) <;> rfl

theorem getMetaCSPHead_eq_find :
    ∀ f : Forest, getMetaCSPHead f =
      (elemsTop f).find?
        (fun e => decide (e.tag = metaTag ∧ e.props.httpEquiv.map lowerStr = some cspName))
  | .nil => rfl
  | .cons (.text s) f => by
    rw [getMetaCSPHead, elemsTop, getMetaCSPHead_eq_find f]
  | .cons (.element i t pr cs) f => by
    rw [getMetaCSPHead, elemsTop]
    by_cases hp : t = metaTag ∧ pr.httpEquiv.map lowerStr = some cspName
    · rw [if_pos hp]
      exact (List.find?_cons_of_pos
        (p := fun e => decide (e.tag = metaTag ∧ e.props.httpEquiv.map lowerStr = some cspName))
        (a := ⟨i, t, pr⟩) (elemsTop f) (decide_eq_true hp)).symm
    · rw [if_neg hp, getMetaCSPHead_eq_find f]
      exact (List.find?_cons_of_neg
        (p := fun e => decide (e.tag = metaTag ∧ e.props.httpEquiv.map lowerStr = some cspName))
        (a := ⟨i, t, pr⟩) (elemsTop f) (fun hc => hp (of_decide_eq_true hc))).symm

theorem getMetaCSPTree_mem {f : Forest} {e : Elem}
    (h : getMetaCSPTree f = some e) : e ∈ elemsF f ∧ e.tag = metaTag := by
  rw [getMetaCSPTree_eq_find] at h
  cases h1 : (elemsF f).find?
      (fun x => decide (x.tag = metaTag ∧ x.props.httpEquiv = some cspName)) with
  | some e1 =>
    rw [h1] at h
    cases h
    have hmem := List.mem_of_find?_eq_some h1
    have hp := List.find?_some h1
    simp only [decide_eq_true_eq] at hp
    exact ⟨hmem, hp.1⟩
  | none =>
    rw [h1] at h
    simp only [Option.or] at h
    have hmem := List.mem_of_find?_eq_some h
    have hp := List.find?_some h
    simp only [decide_eq_true_eq] at hp
    exact ⟨hmem, hp.1⟩

theorem getMetaCSPHead_mem {f : Forest} {e : Elem}
    (h : getMetaCSPHead f = some e) : e ∈ elemsTop f ∧ e.tag = metaTag := by
  rw [getMetaCSPHead_eq_find] at h
  have hmem := List.mem_of_find?_eq_some h
  have hp := List.find?_some h
  simp only [decide_eq_true_eq] at hp
  exact ⟨hmem, hp.1⟩

theorem jsLookup_setAssoc_self (m : List (Str × Str)) (k v : Str) :
    jsLookup (setAssoc m k v) k = some v := by
  induction m with
  | nil => simp [setAssoc, jsLookup]
  | cons kv rest ih =>
    obtain ⟨k0, v0⟩ := kv
    rw [setAssoc]
    by_cases hk : k0 = k
    · rw [if_pos hk, jsLookup, if_pos hk]
    · rw [if_neg hk, jsLookup, if_neg hk, ih]

theorem jsLookup_setAssoc_other (m : List (Str × Str)) {k k' : Str} (v : Str)
    (h : k' ≠ k) : jsLookup (setAssoc m k v) k' = jsLookup m k' := by
  induction m with
  | nil => simp [setAssoc, jsLookup, Ne.symm h]
  | cons kv rest ih =>
    obtain ⟨k0, v0⟩ := kv
    rw [setAssoc]
    by_cases hk : k0 = k
    · rw [if_pos hk, jsLookup, jsLookup]
      have hne : ¬ k0 = k' := fun hh => h (hh.symm.trans hk)
      rw [if_neg hne, if_neg hne]
    · rw [if_neg hk, jsLookup, jsLookup, ih]

theorem getHeader_setHeader_self (res : Response) (k v : Str) :
    getHeader (setHeader res k v) k = some v :=
  jsLookup_setAssoc_self res.headers k v

theorem getHeader_setHeader_other (res : Response) {k k' : Str} (v : Str)
    (h : k' ≠ k) : getHeader (setHeader res k v) k' = getHeader res k' :=
  jsLookup_setAssoc_other res.headers v h

theorem setHeader_body (res : Response) (k v : Str) :
    (setHeader res k v).body = res.body := rfl

/-! ## Pointwise facts about the property rewrites -/

theorem gContent_nonce (mid : Nat) (nonce : Str) (i : Nat) (t : Str) (pr : Props) :
    (gContent mid nonce i t pr).nonce = pr.nonce := by
  rw [gContent]
  split <;> rfl

theorem gKeepFalse_nonce (mid : Nat) (i : Nat) (t : Str) (pr : Props) :
    (gKeepFalse mid i t pr).nonce = pr.nonce := by
  rw [gKeepFalse]
  split <;> rfl

theorem gScript_of_ne (nonce : Str) (i : Nat) {t : Str} (pr : Props)
    (h : t ≠ scriptTag) : gScript nonce i t pr = pr := by
  rw [gScript, if_neg h]

theorem gStyle_of_ne (nonce : Str) (i : Nat) {t : Str} (pr : Props)
    (h : t ≠ styleTag) : gStyle nonce i t pr = pr := by
  rw [gStyle, if_neg h]

/-! ## Claim C9 — parser idempotence -/

/-- C9: for every raw policy string, re-parsing the reconstruction
(directive + " " + value joined by "; ") of its parse agrees with the
original parse on every directive whose value is non-empty (the two parses
are in fact equal, which this statement instantiates at such directives). -/
theorem c9_parser_idempotence (s k v : Str)
    (hv : jsLookup (parseCSP s) k = some v) (_hne : v ≠ []) :
    jsLookup (parseCSP (reconstructCSP (parseCSP s))) k = some v := by
  rw [parseCSP_roundtrip]
  exact hv

theorem c9_parser_idempotence_witness :
    jsLookup (parseCSP (strL ("script-src a b; style-src c")))
        (strL ("script-src")) = some (strL ("a b")) ∧
      strL ("a b") ≠ [] ∧
      jsLookup
        (parseCSP (reconstructCSP (parseCSP (strL ("script-src a b; style-src c")))))
        (strL ("script-src")) = some (strL ("a b")) :=
  ⟨by decide, by decide, c9_parser_idempotence _ _ _ (by decide) (by decide)⟩

/-! ## Claim C8 — the parseCSP algorithm -/

/-- C8 as stated is false on the code: `parseCSP` does not skip empty
segments (the empty string parses to a mapping carrying the entry with empty
directive name), and segments are split on the space character only, not on
whitespace (a tab does not separate a directive name from its value). -/
theorem c8_counterexample :
    parseCSP [] = [([], [])] ∧
      parseCSPClaimed [] = [] ∧
      parseCSP (strL ("a\tb")) = [(strL ("a\tb"), [])] ∧
      parseCSPClaimed (strL ("a\tb")) = [(strL ("a"), strL ("b"))] ∧
      parseCSP [] ≠ parseCSPClaimed [] ∧
      parseCSP (strL ("a\tb")) ≠ parseCSPClaimed (strL ("a\tb")) := by
  decide

/-- C8 amended: `parseCSP` splits on `;`, trims each segment and splits it on
the space character; the first token (possibly empty) is the directive name
and the remaining tokens rejoined with single spaces are the value; every
segment contributes an entry (an empty segment contributes the entry with
empty name and value), later duplicates overwriting earlier ones; the
function is total. -/
theorem c8_amended (csp : Str) : parseCSP csp = parseCSPAmended csp :=
  parseCSP_eq_foldPairs csp

/-! ## Claim C7 — meta CSP element selection -/

/-- C7 as stated is false on the tree module: `getMetaCSP` prefers the first
exact-lowercase `http-equiv` match over document order (a
`Content-Security-Policy`-cased element earlier in the document loses to a
lowercase one later in the document), and a casing other than the two exact
spellings is not recognised at all, although the claim's case-insensitive
first match exists. -/
theorem c7_counterexample :
    getMetaCSPTree cexCaseTree =
        some ⟨2, metaTag, { httpEquiv := some cspName, content := strL ("b") }⟩ ∧
      firstMetaCaseInsensitive cexCaseTree =
        some ⟨1, metaTag, { httpEquiv := some cspCapName, content := strL ("a") }⟩ ∧
      getMetaCSPTree cexCaseTree ≠ firstMetaCaseInsensitive cexCaseTree ∧
      getMetaCSPTree cexCapsTree = none ∧
      firstMetaCaseInsensitive cexCapsTree ≠ none := by
  decide

/-- C7 amended: the tree module selects the first element in document
(preorder) order whose `http-equiv` is exactly `content-security-policy`,
and only if none exists the first whose `http-equiv` is exactly
`Content-Security-Policy`; the head-fragment module selects the first direct
child of the root whose first `http-equiv` token lowercases to
`content-security-policy`.  Both selections are deterministic first matches
of their respective traversals. -/
theorem c7_amended (f : Forest) :
    getMetaCSPTree f =
        ((elemsF f).find?
          (fun e => decide (e.tag = metaTag ∧ e.props.httpEquiv = some cspName))).or
        ((elemsF f).find?
          (fun e => decide (e.tag = metaTag ∧ e.props.httpEquiv = some cspCapName))) ∧
      getMetaCSPHead f =
        (elemsTop f).find?
          (fun e =>
            decide (e.tag = metaTag ∧ e.props.httpEquiv.map lowerStr = some cspName)) :=
  ⟨getMetaCSPTree_eq_find f, getMetaCSPHead_eq_find f⟩

/-! ## Branch reductions of the reconciler -/

theorem cspTree_noop {res : Response} {tree : Forest} (nonce : Str)
    (hm : getMetaCSPTree tree = none)
    (hh : truthyS (getHeader res cspName) = false) :
    contentSecurityPolicyTree nonce res tree = (res, tree) := by
  rw [contentSecurityPolicyTree]
  simp [hm, hh]

theorem cspTree_of_meta_of_noHdr {res : Response} {tree : Forest} {e0 : Elem}
    (nonce : Str) (hm : getMetaCSPTree tree = some e0)
    (hh : truthyS (getHeader res cspName) = false) :
    contentSecurityPolicyTree nonce res tree =
      (if e0.props.keepAsMeta = false then
        (setHeader
          (if includesSub nonceLit e0.props.content then
            (createAndApplyNonceTree nonce res tree (some e0)
              (getHeader res cspName)).1
          else res) cspName
          (if includesSub nonceLit e0.props.content then
            replaceAllStr nonceLit (nonceRepl nonce) e0.props.content
          else e0.props.content),
         remForest e0.id
          (if includesSub nonceLit e0.props.content then
            (createAndApplyNonceTree nonce res tree (some e0)
              (getHeader res cspName)).2
          else tree))
      else
        ((if includesSub nonceLit e0.props.content then
            (createAndApplyNonceTree nonce res tree (some e0)
              (getHeader res cspName)).1
          else res),
         mapPropsF (gKeepFalse e0.id)
          (if includesSub nonceLit e0.props.content then
            (createAndApplyNonceTree nonce res tree (some e0)
              (getHeader res cspName)).2
          else tree))) := by
  rw [contentSecurityPolicyTree]
  simp only [hm, hh]
  by_cases hnc : includesSub nonceLit e0.props.content
  · by_cases hkp : e0.props.keepAsMeta <;>
      simp [hnc, hkp]
  · by_cases hkp : e0.props.keepAsMeta <;>
      simp [hnc, hkp]

theorem cspTree_of_meta_of_hdr {res : Response} {tree : Forest} {e0 : Elem}
    {h : Str} (nonce : Str) (hm : getMetaCSPTree tree = some e0)
    (hh : getHeader res cspName = some h) (hne : h ≠ []) :
    contentSecurityPolicyTree nonce res tree =
      (if includesSub nonceLit e0.props.content || includesSub nonceLit h then
        createAndApplyNonceTree nonce res tree (some e0) (some h)
      else (res, tree)) := by
  have hth : truthyS (some h) = true := by simp [truthyS, hne]
  rw [contentSecurityPolicyTree]
  simp only [hm, hh, hth]
  by_cases hnc : (includesSub nonceLit e0.props.content || includesSub nonceLit h) = true
  · simp [hnc, hth]
  · simp only [Bool.or_eq_true, not_or] at hnc
    simp [hnc.1, hnc.2, hth]

theorem cspTree_of_noMeta_of_hdr {res : Response} {tree : Forest} {h : Str}
    (nonce : Str) (hm : getMetaCSPTree tree = none)
    (hh : getHeader res cspName = some h) (hne : h ≠ []) :
    contentSecurityPolicyTree nonce res tree =
      (if includesSub nonceLit h then
        createAndApplyNonceTree nonce res tree none (some h)
      else (res, tree)) := by
  have hth : truthyS (some h) = true := by simp [truthyS, hne]
  rw [contentSecurityPolicyTree]
  simp only [hm, hh, hth]
  by_cases hnc : includesSub nonceLit h = true
  · simp [hnc, hth]
  · simp [hnc, hth]

theorem cspHead_noop {res : Response} {tree : Forest} (nonce : Str)
    (hm : getMetaCSPHead tree = none)
    (hh : truthyS (getHeader res cspName) = false) :
    contentSecurityPolicyHead nonce res tree = (res, tree) := by
  rw [contentSecurityPolicyHead]
  simp [hm, hh]

theorem cspHead_of_meta_of_noHdr {res : Response} {tree : Forest} {e0 : Elem}
    (nonce : Str) (hm : getMetaCSPHead tree = some e0)
    (hh : truthyS (getHeader res cspName) = false) :
    contentSecurityPolicyHead nonce res tree =
      (if e0.props.keepAsMeta = false then
        (setHeader
          (if includesSub nonceLit e0.props.content then
            (createAndApplyNonceHead nonce res tree (some e0)
              (getHeader res cspName)).1
          else res) cspName
          (if includesSub nonceLit e0.props.content then
            replaceAllStr nonceLit (nonceRepl nonce) e0.props.content
          else e0.props.content),
         remForest e0.id
          (if includesSub nonceLit e0.props.content then
            (createAndApplyNonceHead nonce res tree (some e0)
              (getHeader res cspName)).2
          else tree))
      else
        ((if includesSub nonceLit e0.props.content then
            (createAndApplyNonceHead nonce res tree (some e0)
              (getHeader res cspName)).1
          else res),
         mapPropsF (gKeepFalse e0.id)
          (if includesSub nonceLit e0.props.content then
            (createAndApplyNonceHead nonce res tree (some e0)
              (getHeader res cspName)).2
          else tree))) := by
  rw [contentSecurityPolicyHead]
  simp only [hm, hh]
  by_cases hnc : includesSub nonceLit e0.props.content
  · by_cases hkp : e0.props.keepAsMeta <;>
      simp [hnc, hkp]
  · by_cases hkp : e0.props.keepAsMeta <;>
      simp [hnc, hkp]

theorem cspHead_of_meta_of_hdr {res : Response} {tree : Forest} {e0 : Elem}
    {h : Str} (nonce : Str) (hm : getMetaCSPHead tree = some e0)
    (hh : getHeader res cspName = some h) (hne : h ≠ []) :
    contentSecurityPolicyHead nonce res tree =
      (if includesSub nonceLit e0.props.content || includesSub nonceLit h then
        createAndApplyNonceHead nonce res tree (some e0) (some h)
      else (res, tree)) := by
  have hth : truthyS (some h) = true := by simp [truthyS, hne]
  rw [contentSecurityPolicyHead]
  simp only [hm, hh, hth]
  by_cases hnc : (includesSub nonceLit e0.props.content || includesSub nonceLit h) = true
  · simp [hnc, hth]
  · simp only [Bool.or_eq_true, not_or] at hnc
    simp [hnc.1, hnc.2, hth]

theorem cspHead_of_noMeta_of_hdr {res : Response} {tree : Forest} {h : Str}
    (nonce : Str) (hm : getMetaCSPHead tree = none)
    (hh : getHeader res cspName = some h) (hne : h ≠ []) :
    contentSecurityPolicyHead nonce res tree =
      (if includesSub nonceLit h then
        createAndApplyNonceHead nonce res tree none (some h)
      else (res, tree)) := by
  have hth : truthyS (some h) = true := by simp [truthyS, hne]
  rw [contentSecurityPolicyHead]
  simp only [hm, hh, hth]
  by_cases hnc : includesSub nonceLit h = true
  · simp [hnc, hth]
  · simp [hnc, hth]

/-! ## Claim C3 — promotion exclusivity -/

/-- C3: in both implementations, when a meta CSP element is found, it lacks
`keep-as-meta`, and no CSP header is present, reconciliation sets the
`content-security-policy` header to the meta element's (nonce-rewritten when
its content mentions `nonce`) content and removes the meta element from the
tree. -/
theorem c3_promotion_exclusivity :
    (∀ (nonce : Str) (res : Response) (tree : Forest) (e0 : Elem),
      getMetaCSPTree tree = some e0 → e0.props.keepAsMeta = false →
      getHeader res cspName = none →
      getHeader (contentSecurityPolicyTree nonce res tree).1 cspName =
        some (if includesSub nonceLit e0.props.content then
          replaceAllStr nonceLit (nonceRepl nonce) e0.props.content
        else e0.props.content) ∧
      ∀ e ∈ elemsF (contentSecurityPolicyTree nonce res tree).2, e.id ≠ e0.id) ∧
    (∀ (nonce : Str) (res : Response) (tree : Forest) (e0 : Elem),
      getMetaCSPHead tree = some e0 → e0.props.keepAsMeta = false →
      getHeader res cspName = none →
      getHeader (contentSecurityPolicyHead nonce res tree).1 cspName =
        some (if includesSub nonceLit e0.props.content then
          replaceAllStr nonceLit (nonceRepl nonce) e0.props.content
        else e0.props.content) ∧
      ∀ e ∈ elemsF (contentSecurityPolicyHead nonce res tree).2, e.id ≠ e0.id) := by
  constructor
  · intro nonce res tree e0 hm hk hhdr
    have hh : truthyS (getHeader res cspName) = false := by rw [hhdr]; rfl
    rw [cspTree_of_meta_of_noHdr nonce hm hh, if_pos hk]
    refine ⟨getHeader_setHeader_self _ _ _, ?_⟩
    intro e he
    exact (mem_remForest he).2
  · intro nonce res tree e0 hm hk hhdr
    have hh : truthyS (getHeader res cspName) = false := by rw [hhdr]; rfl
    rw [cspHead_of_meta_of_noHdr nonce hm hh, if_pos hk]
    refine ⟨getHeader_setHeader_self _ _ _, ?_⟩
    intro e he
    exact (mem_remForest he).2

theorem c3_promotion_exclusivity_witness :
    getMetaCSPTree witScriptTree =
        some ⟨1, metaTag,
          { httpEquiv := some cspName,
            content := strL ("default-src 'self'; script-src 'nonce'") }⟩ ∧
      getHeader rEmpty cspName = none ∧
      getHeader (contentSecurityPolicyTree vW rEmpty witScriptTree).1 cspName =
        some (if includesSub nonceLit
            (strL ("default-src 'self'; script-src 'nonce'")) then
          replaceAllStr nonceLit (nonceRepl vW)
            (strL ("default-src 'self'; script-src 'nonce'"))
        else strL ("default-src 'self'; script-src 'nonce'")) ∧
      ∀ e ∈ elemsF (contentSecurityPolicyTree vW rEmpty witScriptTree).2, e.id ≠ 1 :=
  ⟨by decide, by decide,
    (c3_promotion_exclusivity.1 vW rEmpty witScriptTree
      ⟨1, metaTag,
        { httpEquiv := some cspName,
          content := strL ("default-src 'self'; script-src 'nonce'") }⟩
      (by decide) (by decide) (by decide)).1,
    (c3_promotion_exclusivity.1 vW rEmpty witScriptTree
      ⟨1, metaTag,
        { httpEquiv := some cspName,
          content := strL ("default-src 'self'; script-src 'nonce'") }⟩
      (by decide) (by decide) (by decide)).2⟩

/-! ## Transport helpers and nonce-application reductions -/

theorem mem_elemsF_mapPropsF (g : Nat → Str → Props → Props) {f : Forest}
    {e : Elem} (he : e ∈ elemsF f) :
    (⟨e.id, e.tag, g e.id e.tag e.props⟩ : Elem) ∈ elemsF (mapPropsF g f) := by
  rw [elemsF_mapPropsF]
  exact List.mem_map_of_mem _ he

theorem mem_elemsF_mapPropsF_fix {g : Nat → Str → Props → Props} {f : Forest}
    {e : Elem} (he : e ∈ elemsF f) (hfix : g e.id e.tag e.props = e.props) :
    e ∈ elemsF (mapPropsF g f) := by
  have h := mem_elemsF_mapPropsF g he
  rw [hfix] at h
  exact h

theorem mem_elemsTop_mapPropsTop (g : Nat → Str → Props → Props) {f : Forest}
    {e : Elem} (he : e ∈ elemsTop f) :
    (⟨e.id, e.tag, g e.id e.tag e.props⟩ : Elem) ∈ elemsTop (mapPropsTop g f) := by
  rw [elemsTop_mapPropsTop]
  exact List.mem_map_of_mem _ he

theorem mem_elemsTop_mapPropsF (g : Nat → Str → Props → Props) {f : Forest}
    {e : Elem} (he : e ∈ elemsTop f) :
    (⟨e.id, e.tag, g e.id e.tag e.props⟩ : Elem) ∈ elemsTop (mapPropsF g f) := by
  rw [elemsTop_mapPropsF]
  exact List.mem_map_of_mem _ he

theorem createTree_of_noHdr {res : Response} {tree : Forest} {hdr : Option Str}
    (nonce : Str) (e0 : Elem) (hh : truthyS hdr = false) :
    createAndApplyNonceTree nonce res tree (some e0) hdr =
      (res,
       (if dirHasNonce e0.props.content styleSrcLit then
          mapPropsF (gLinkExact nonce)
            (mapPropsF (gStyle nonce)
              (if dirHasNonce e0.props.content scriptSrcLit then
                mapPropsF (gScript nonce) (mapPropsF (gContent e0.id nonce) tree)
              else mapPropsF (gContent e0.id nonce) tree))
        else
          (if dirHasNonce e0.props.content scriptSrcLit then
            mapPropsF (gScript nonce) (mapPropsF (gContent e0.id nonce) tree)
          else mapPropsF (gContent e0.id nonce) tree))) := by
  rw [createAndApplyNonceTree]
  simp [hh, shouldApplyNonce]

theorem createHead_of_noHdr {res : Response} {tree : Forest} {hdr : Option Str}
    (nonce : Str) (e0 : Elem) (hh : truthyS hdr = false) :
    createAndApplyNonceHead nonce res tree (some e0) hdr =
      (res,
       (if dirHasNonce e0.props.content styleSrcLit then
          mapPropsTop (gStyleLinkHead nonce)
            (if dirHasNonce e0.props.content scriptSrcLit then
              mapPropsTop (gScript nonce) (mapPropsF (gContent e0.id nonce) tree)
            else mapPropsF (gContent e0.id nonce) tree)
        else
          (if dirHasNonce e0.props.content scriptSrcLit then
            mapPropsTop (gScript nonce) (mapPropsF (gContent e0.id nonce) tree)
          else mapPropsF (gContent e0.id nonce) tree))) := by
  rw [createAndApplyNonceHead]
  simp [hh]

theorem createTree_of_hdr {res : Response} {tree : Forest} {h : Str}
    (nonce : Str) (mc : Option Elem) (hne : h ≠ []) :
    createAndApplyNonceTree nonce res tree mc (some h) =
      (setHeader res cspName (replaceAllStr nonceLit (nonceRepl nonce) h),
       (if styleFlag mc (some h) then
          mapPropsF (gLinkExact nonce)
            (mapPropsF (gStyle nonce)
              (if scriptFlag mc (some h) then
                mapPropsF (gScript nonce)
                  (match mc with
                    | some e0 => mapPropsF (gContent e0.id nonce) tree
                    | none => tree)
              else
                (match mc with
                  | some e0 => mapPropsF (gContent e0.id nonce) tree
                  | none => tree)))
        else
          (if scriptFlag mc (some h) then
            mapPropsF (gScript nonce)
              (match mc with
                | some e0 => mapPropsF (gContent e0.id nonce) tree
                | none => tree)
          else
            (match mc with
              | some e0 => mapPropsF (gContent e0.id nonce) tree
              | none => tree)))) := by
  have hth : truthyS (some h) = true := by simp [truthyS, hne]
  cases mc with
  | none =>
    rw [createAndApplyNonceTree]
    simp [hth, shouldApplyNonce, scriptFlag, styleFlag]
  | some e0 =>
    rw [createAndApplyNonceTree]
    simp [hth, shouldApplyNonce, scriptFlag, styleFlag]

theorem createHead_of_hdr {res : Response} {tree : Forest} {h : Str}
    (nonce : Str) (mc : Option Elem) (hne : h ≠ []) :
    createAndApplyNonceHead nonce res tree mc (some h) =
      (setHeader res cspName (replaceAllStr nonceLit (nonceRepl nonce) h),
       (if styleFlag mc (some h) then
          mapPropsTop (gStyleLinkHead nonce)
            (if scriptFlag mc (some h) then
              mapPropsTop (gScript nonce)
                (match mc with
                  | some e0 => mapPropsF (gContent e0.id nonce) tree
                  | none => tree)
            else
              (match mc with
                | some e0 => mapPropsF (gContent e0.id nonce) tree
                | none => tree))
        else
          (if scriptFlag mc (some h) then
            mapPropsTop (gScript nonce)
              (match mc with
                | some e0 => mapPropsF (gContent e0.id nonce) tree
                | none => tree)
          else
            (match mc with
              | some e0 => mapPropsF (gContent e0.id nonce) tree
              | none => tree)))) := by
  have hth : truthyS (some h) = true := by simp [truthyS, hne]
  cases mc with
  | none =>
    rw [createAndApplyNonceHead]
    simp [hth, scriptFlag, styleFlag]
  | some e0 =>
    rw [createAndApplyNonceHead]
    simp [hth, scriptFlag, styleFlag]

theorem gContent_self (mid : Nat) (nonce : Str) (t : Str) (pr : Props) :
    gContent mid nonce mid t pr =
      { pr with content := replaceAllStr nonceLit (nonceRepl nonce) pr.content } := by
  rw [gContent, if_pos rfl]

theorem gContent_of_ne {mid i : Nat} (nonce : Str) (t : Str) (pr : Props)
    (h : i ≠ mid) : gContent mid nonce i t pr = pr := by
  rw [gContent, if_neg h]

theorem gKeepFalse_self (mid : Nat) (t : Str) (pr : Props) :
    gKeepFalse mid mid t pr = { pr with keepAsMeta := false } := by
  rw [gKeepFalse, if_pos rfl]

theorem gKeepFalse_of_ne {mid i : Nat} (t : Str) (pr : Props) (h : i ≠ mid) :
    gKeepFalse mid i t pr = pr := by
  rw [gKeepFalse, if_neg h]

theorem gLinkExact_of_ne (nonce : Str) (i : Nat) {t : Str} (pr : Props)
    (h : t ≠ linkTag) : gLinkExact nonce i t pr = pr := by
  rw [gLinkExact, if_neg (fun hc => h hc.1)]

theorem gStyleLinkHead_of_ne (nonce : Str) (i : Nat) {t : Str} (pr : Props)
    (hs : t ≠ styleTag) (hl : t ≠ linkTag) : gStyleLinkHead nonce i t pr = pr := by
  rw [gStyleLinkHead, if_neg]
  rintro (hc | hc)
  · exact hs hc
  · exact hl hc.1

/-- A meta element keeps its identity and (nonce-rewritten) properties through
the stamping passes of the tree module's nonce branch. -/
theorem metaMem_createTree (nonce : Str) {tree : Forest} {e0 : Elem}
    (hmem : e0 ∈ elemsF tree) (htag : e0.tag = metaTag) (sF stF : Bool) :
    (⟨e0.id, e0.tag,
      { e0.props with
        content := replaceAllStr nonceLit (nonceRepl nonce) e0.props.content }⟩ : Elem) ∈
      elemsF
        (if stF then
          mapPropsF (gLinkExact nonce)
            (mapPropsF (gStyle nonce)
              (if sF then
                mapPropsF (gScript nonce) (mapPropsF (gContent e0.id nonce) tree)
              else mapPropsF (gContent e0.id nonce) tree))
        else
          (if sF then
            mapPropsF (gScript nonce) (mapPropsF (gContent e0.id nonce) tree)
          else mapPropsF (gContent e0.id nonce) tree)) := by
  have hsc : e0.tag ≠ scriptTag := by rw [htag]; decide
  have hst : e0.tag ≠ styleTag := by rw [htag]; decide
  have hlk : e0.tag ≠ linkTag := by rw [htag]; decide
  have h1 : (⟨e0.id, e0.tag,
      { e0.props with
        content := replaceAllStr nonceLit (nonceRepl nonce) e0.props.content }⟩ : Elem) ∈
      elemsF (mapPropsF (gContent e0.id nonce) tree) := by
    have h := mem_elemsF_mapPropsF (gContent e0.id nonce) hmem
    rwa [gContent_self] at h
  have h2 : (⟨e0.id, e0.tag,
      { e0.props with
        content := replaceAllStr nonceLit (nonceRepl nonce) e0.props.content }⟩ : Elem) ∈
      elemsF (if sF then
        mapPropsF (gScript nonce) (mapPropsF (gContent e0.id nonce) tree)
      else mapPropsF (gContent e0.id nonce) tree) := by
    cases sF
    · simpa using h1
    · simpa using mem_elemsF_mapPropsF_fix h1 (gScript_of_ne nonce _ _ hsc)
  cases stF
  · simpa using h2
  · have h3 := mem_elemsF_mapPropsF_fix h2 (gStyle_of_ne nonce _ _ hst)
    simpa using mem_elemsF_mapPropsF_fix h3 (gLinkExact_of_ne nonce _ _ hlk)

/-- A meta element among the direct children keeps its identity and
(nonce-rewritten) properties through the stamping passes of the head-fragment
module's nonce branch. -/
theorem metaMem_createHead (nonce : Str) {tree : Forest} {e0 : Elem}
    (hmem : e0 ∈ elemsTop tree) (htag : e0.tag = metaTag) (sF stF : Bool) :
    (⟨e0.id, e0.tag,
      { e0.props with
        content := replaceAllStr nonceLit (nonceRepl nonce) e0.props.content }⟩ : Elem) ∈
      elemsTop
        (if stF then
          mapPropsTop (gStyleLinkHead nonce)
            (if sF then
              mapPropsTop (gScript nonce) (mapPropsF (gContent e0.id nonce) tree)
            else mapPropsF (gContent e0.id nonce) tree)
        else
          (if sF then
            mapPropsTop (gScript nonce) (mapPropsF (gContent e0.id nonce) tree)
          else mapPropsF (gContent e0.id nonce) tree)) := by
  have hsc : e0.tag ≠ scriptTag := by rw [htag]; decide
  have hst : e0.tag ≠ styleTag := by rw [htag]; decide
  have hlk : e0.tag ≠ linkTag := by rw [htag]; decide
  have h1 : (⟨e0.id, e0.tag,
      { e0.props with
        content := replaceAllStr nonceLit (nonceRepl nonce) e0.props.content }⟩ : Elem) ∈
      elemsTop (mapPropsF (gContent e0.id nonce) tree) := by
    have h := mem_elemsTop_mapPropsF (gContent e0.id nonce) hmem
    rwa [gContent_self] at h
  have h2 : (⟨e0.id, e0.tag,
      { e0.props with
        content := replaceAllStr nonceLit (nonceRepl nonce) e0.props.content }⟩ : Elem) ∈
      elemsTop (if sF then
        mapPropsTop (gScript nonce) (mapPropsF (gContent e0.id nonce) tree)
      else mapPropsF (gContent e0.id nonce) tree) := by
    cases sF
    · simpa using h1
    · have h := mem_elemsTop_mapPropsTop (gScript nonce) h1
      rwa [gScript_of_ne nonce _ _ hsc] at h
  cases stF
  · simpa using h2
  · have h3 := mem_elemsTop_mapPropsTop (gStyleLinkHead nonce) h2
    rwa [gStyleLinkHead_of_ne nonce _ _ hst hlk] at h3

/-! ## Claim C5 — keep-as-meta preservation -/

/-- C5: in both implementations, when a meta CSP element carrying
`keep-as-meta` is found and no CSP header is present, the meta element is
still in the tree afterwards, with its content intact (nonce-rewritten when
the nonce branch ran), the `keep-as-meta` marker deleted, and the
`content-security-policy` header still unset. -/
theorem c5_keep_as_meta_preservation :
    (∀ (nonce : Str) (res : Response) (tree : Forest) (e0 : Elem),
      getMetaCSPTree tree = some e0 → e0.props.keepAsMeta = true →
      getHeader res cspName = none →
      (⟨e0.id, e0.tag,
        { e0.props with
          content := if includesSub nonceLit e0.props.content then
            replaceAllStr nonceLit (nonceRepl nonce) e0.props.content
          else e0.props.content,
          keepAsMeta := false }⟩ : Elem) ∈
        elemsF (contentSecurityPolicyTree nonce res tree).2 ∧
      getHeader (contentSecurityPolicyTree nonce res tree).1 cspName = none) ∧
    (∀ (nonce : Str) (res : Response) (tree : Forest) (e0 : Elem),
      getMetaCSPHead tree = some e0 → e0.props.keepAsMeta = true →
      getHeader res cspName = none →
      (⟨e0.id, e0.tag,
        { e0.props with
          content := if includesSub nonceLit e0.props.content then
            replaceAllStr nonceLit (nonceRepl nonce) e0.props.content
          else e0.props.content,
          keepAsMeta := false }⟩ : Elem) ∈
        elemsTop (contentSecurityPolicyHead nonce res tree).2 ∧
      getHeader (contentSecurityPolicyHead nonce res tree).1 cspName = none) := by
  constructor
  · intro nonce res tree e0 hm hk hhdr
    have hh : truthyS (getHeader res cspName) = false := by rw [hhdr]; rfl
    obtain ⟨hmem, htag⟩ := getMetaCSPTree_mem hm
    rw [cspTree_of_meta_of_noHdr nonce hm hh, if_neg (by rw [hk]; simp)]
    by_cases hnc : includesSub nonceLit e0.props.content = true
    · simp only [hnc, if_true]
      constructor
      · rw [createTree_of_noHdr nonce e0 hh]
        have h2 := metaMem_createTree nonce hmem htag
          (dirHasNonce e0.props.content scriptSrcLit)
          (dirHasNonce e0.props.content styleSrcLit)
        have h3 := mem_elemsF_mapPropsF (gKeepFalse e0.id) h2
        rw [gKeepFalse_self] at h3
        exact h3
      · rw [createTree_of_noHdr nonce e0 hh]
        exact hhdr
    · simp only [Bool.not_eq_true] at hnc
      simp only [hnc, Bool.false_eq_true, if_false]
      constructor
      · have h3 := mem_elemsF_mapPropsF (gKeepFalse e0.id) hmem
        rw [gKeepFalse_self] at h3
        exact h3
      · exact hhdr
  · intro nonce res tree e0 hm hk hhdr
    have hh : truthyS (getHeader res cspName) = false := by rw [hhdr]; rfl
    obtain ⟨hmem, htag⟩ := getMetaCSPHead_mem hm
    rw [cspHead_of_meta_of_noHdr nonce hm hh, if_neg (by rw [hk]; simp)]
    by_cases hnc : includesSub nonceLit e0.props.content = true
    · simp only [hnc, if_true]
      constructor
      · rw [createHead_of_noHdr nonce e0 hh]
        have h2 := metaMem_createHead nonce hmem htag
          (dirHasNonce e0.props.content scriptSrcLit)
          (dirHasNonce e0.props.content styleSrcLit)
        have h3 := mem_elemsTop_mapPropsF (gKeepFalse e0.id) h2
        rw [gKeepFalse_self] at h3
        exact h3
      · rw [createHead_of_noHdr nonce e0 hh]
        exact hhdr
    · simp only [Bool.not_eq_true] at hnc
      simp only [hnc, Bool.false_eq_true, if_false]
      constructor
      · have h3 := mem_elemsTop_mapPropsF (gKeepFalse e0.id) hmem
        rw [gKeepFalse_self] at h3
        exact h3
      · exact hhdr

theorem c5_keep_as_meta_preservation_witness :
    getMetaCSPTree cexKeepTree =
        some ⟨1, metaTag,
          { httpEquiv := some cspName, content := strL ("x"), keepAsMeta := true }⟩ ∧
      getHeader rEmpty cspName = none ∧
      ((⟨1, metaTag,
        { httpEquiv := some cspName,
          content := if includesSub nonceLit (strL ("x")) then
            replaceAllStr nonceLit (nonceRepl vW) (strL ("x"))
          else strL ("x"),
          keepAsMeta := false }⟩ : Elem) ∈
        elemsF (contentSecurityPolicyTree vW rEmpty cexKeepTree).2 ∧
      getHeader (contentSecurityPolicyTree vW rEmpty cexKeepTree).1 cspName = none) :=
  ⟨by decide, by decide,
    c5_keep_as_meta_preservation.1 vW rEmpty cexKeepTree
      ⟨1, metaTag,
        { httpEquiv := some cspName, content := strL ("x"), keepAsMeta := true }⟩
      (by decide) (by decide) (by decide)⟩

/-! ## Claim C4 — removal of the keep-as-meta marker -/

/-- C4 as stated is false on the code: when a CSP header value is present
alongside a meta CSP element carrying `keep-as-meta`, the promotion branch is
never entered and the marker survives reconciliation (here the whole state is
unchanged: the meta element still carries `keep-as-meta` afterwards). -/
theorem c4_counterexample :
    getMetaCSPTree cexKeepTree =
        some ⟨1, metaTag,
          { httpEquiv := some cspName, content := strL ("x"), keepAsMeta := true }⟩ ∧
      getHeader (rCspOf (strL ("y"))) cspName = some (strL ("y")) ∧
      elemsF (contentSecurityPolicyTree vW (rCspOf (strL ("y"))) cexKeepTree).2 =
        [⟨1, metaTag,
          { httpEquiv := some cspName, content := strL ("x"), keepAsMeta := true }⟩] := by
  decide

/-- C4 amended: the `keep-as-meta` property is deleted from the meta element
exactly when a meta CSP element is found and no (truthy) CSP header exists —
in both sub-branches of the promotion step, in both implementations; when a
non-empty header value is present, the meta element survives with its
`keep-as-meta` value (and all other properties except a possible nonce
rewrite of its content) unchanged. -/
theorem c4_amended :
    (∀ (nonce : Str) (res : Response) (tree : Forest) (e0 : Elem),
      getMetaCSPTree tree = some e0 →
      truthyS (getHeader res cspName) = false →
      ∀ e ∈ elemsF (contentSecurityPolicyTree nonce res tree).2,
        e.id = e0.id → e.props.keepAsMeta = false) ∧
    (∀ (nonce : Str) (res : Response) (tree : Forest) (e0 : Elem),
      getMetaCSPHead tree = some e0 →
      truthyS (getHeader res cspName) = false →
      ∀ e ∈ elemsF (contentSecurityPolicyHead nonce res tree).2,
        e.id = e0.id → e.props.keepAsMeta = false) ∧
    (∀ (nonce : Str) (res : Response) (tree : Forest) (e0 : Elem) (h : Str),
      getMetaCSPTree tree = some e0 →
      getHeader res cspName = some h → h ≠ [] →
      (⟨e0.id, e0.tag,
        { e0.props with
          content := if includesSub nonceLit e0.props.content ||
              includesSub nonceLit h then
            replaceAllStr nonceLit (nonceRepl nonce) e0.props.content
          else e0.props.content }⟩ : Elem) ∈
        elemsF (contentSecurityPolicyTree nonce res tree).2) ∧
    (∀ (nonce : Str) (res : Response) (tree : Forest) (e0 : Elem) (h : Str),
      getMetaCSPHead tree = some e0 →
      getHeader res cspName = some h → h ≠ [] →
      (⟨e0.id, e0.tag,
        { e0.props with
          content := if includesSub nonceLit e0.props.content ||
              includesSub nonceLit h then
            replaceAllStr nonceLit (nonceRepl nonce) e0.props.content
          else e0.props.content }⟩ : Elem) ∈
        elemsTop (contentSecurityPolicyHead nonce res tree).2) := by
  refine ⟨?_, ?_, ?_, ?_⟩
  · intro nonce res tree e0 hm hh e he hid
    rw [cspTree_of_meta_of_noHdr nonce hm hh] at he
    by_cases hkp : e0.props.keepAsMeta = false
    · rw [if_pos hkp] at he
      exact absurd hid (mem_remForest he).2
    · rw [if_neg hkp] at he
      rw [elemsF_mapPropsF] at he
      obtain ⟨e1, he1, rfl⟩ := List.mem_map.mp he
      have : e1.id = e0.id := hid
      rw [gKeepFalse, if_pos this]
  · intro nonce res tree e0 hm hh e he hid
    rw [cspHead_of_meta_of_noHdr nonce hm hh] at he
    by_cases hkp : e0.props.keepAsMeta = false
    · rw [if_pos hkp] at he
      exact absurd hid (mem_remForest he).2
    · rw [if_neg hkp] at he
      rw [elemsF_mapPropsF] at he
      obtain ⟨e1, he1, rfl⟩ := List.mem_map.mp he
      have : e1.id = e0.id := hid
      rw [gKeepFalse, if_pos this]
  · intro nonce res tree e0 h hm hh hne
    obtain ⟨hmem, htag⟩ := getMetaCSPTree_mem hm
    rw [cspTree_of_meta_of_hdr nonce hm hh hne]
    by_cases hnc : (includesSub nonceLit e0.props.content ||
        includesSub nonceLit h) = true
    · simp only [hnc, if_true]
      rw [createTree_of_hdr nonce (some e0) hne]
      exact metaMem_createTree nonce hmem htag _ _
    · simp only [Bool.not_eq_true] at hnc
      simp only [hnc, Bool.false_eq_true, if_false]
      exact hmem
  · intro nonce res tree e0 h hm hh hne
    obtain ⟨hmem, htag⟩ := getMetaCSPHead_mem hm
    rw [cspHead_of_meta_of_hdr nonce hm hh hne]
    by_cases hnc : (includesSub nonceLit e0.props.content ||
        includesSub nonceLit h) = true
    · simp only [hnc, if_true]
      rw [createHead_of_hdr nonce (some e0) hne]
      exact metaMem_createHead nonce hmem htag _ _
    · simp only [Bool.not_eq_true] at hnc
      simp only [hnc, Bool.false_eq_true, if_false]
      exact hmem

theorem c4_amended_witness :
    (getMetaCSPTree cexKeepTree =
        some ⟨1, metaTag,
          { httpEquiv := some cspName, content := strL ("x"), keepAsMeta := true }⟩ ∧
      getHeader (rCspOf (strL ("y"))) cspName = some (strL ("y")) ∧
      strL ("y") ≠ [] ∧
      (⟨1, metaTag,
        { httpEquiv := some cspName,
          content := if includesSub nonceLit (strL ("x")) ||
              includesSub nonceLit (strL ("y")) then
            replaceAllStr nonceLit (nonceRepl vW) (strL ("x"))
          else strL ("x"),
          keepAsMeta := true }⟩ : Elem) ∈
        elemsF (contentSecurityPolicyTree vW (rCspOf (strL ("y"))) cexKeepTree).2) ∧
    (truthyS (getHeader rEmpty cspName) = false ∧
      (⟨1, metaTag,
        { httpEquiv := some cspName, content := strL ("x"),
          keepAsMeta := false }⟩ : Elem) ∈
        elemsF (contentSecurityPolicyTree vW rEmpty cexKeepTree).2 ∧
      (⟨1, metaTag,
        { httpEquiv := some cspName, content := strL ("x"),
          keepAsMeta := false }⟩ : Elem).props.keepAsMeta = false) :=
  ⟨⟨by decide, by decide, by decide,
    c4_amended.2.2.1 vW (rCspOf (strL ("y"))) cexKeepTree
      ⟨1, metaTag,
        { httpEquiv := some cspName, content := strL ("x"), keepAsMeta := true }⟩
      (strL ("y")) (by decide) (by decide) (by decide)⟩,
   by decide,
   by decide,
   c4_amended.1 vW rEmpty cexKeepTree
      ⟨1, metaTag,
        { httpEquiv := some cspName, content := strL ("x"), keepAsMeta := true }⟩
      (by decide) (by decide)
      ⟨1, metaTag,
        { httpEquiv := some cspName, content := strL ("x"), keepAsMeta := false }⟩
      (by decide) (by decide)⟩

/-! ## Claim C6 — header precedence -/

/-- C6 as stated is false on the code: a present but empty CSP header value
is falsy in JavaScript, so with `content-security-policy` set to the empty
string and a meta CSP element present the promotion branch still runs — the
meta element is removed from the tree and its content copied into the
header. -/
theorem c6_counterexample :
    getHeader (rCspOf []) cspName = some [] ∧
      getMetaCSPTree cexPlainMetaTree =
        some ⟨1, metaTag,
          { httpEquiv := some cspName, content := strL ("default-src a") }⟩ ∧
      elemsF (contentSecurityPolicyTree vW (rCspOf []) cexPlainMetaTree).2 = [] ∧
      getHeader (contentSecurityPolicyTree vW (rCspOf []) cexPlainMetaTree).1
        cspName = some (strL ("default-src a")) := by
  decide

/-- C6 amended: when both a meta CSP element and a non-empty CSP header value
are present, the meta element is never removed and never promoted — it stays
in the tree with all properties unchanged except that its content is
nonce-rewritten when the nonce branch runs, and the final header value is the
(possibly nonce-rewritten) original header value, not the meta content.  This
holds in both implementations. -/
theorem c6_header_precedence :
    (∀ (nonce : Str) (res : Response) (tree : Forest) (e0 : Elem) (h : Str),
      getMetaCSPTree tree = some e0 →
      getHeader res cspName = some h → h ≠ [] →
      (⟨e0.id, e0.tag,
        { e0.props with
          content := if includesSub nonceLit e0.props.content ||
              includesSub nonceLit h then
            replaceAllStr nonceLit (nonceRepl nonce) e0.props.content
          else e0.props.content }⟩ : Elem) ∈
        elemsF (contentSecurityPolicyTree nonce res tree).2 ∧
      getHeader (contentSecurityPolicyTree nonce res tree).1 cspName =
        some (if includesSub nonceLit e0.props.content ||
            includesSub nonceLit h then
          replaceAllStr nonceLit (nonceRepl nonce) h
        else h)) ∧
    (∀ (nonce : Str) (res : Response) (tree : Forest) (e0 : Elem) (h : Str),
      getMetaCSPHead tree = some e0 →
      getHeader res cspName = some h → h ≠ [] →
      (⟨e0.id, e0.tag,
        { e0.props with
          content := if includesSub nonceLit e0.props.content ||
              includesSub nonceLit h then
            replaceAllStr nonceLit (nonceRepl nonce) e0.props.content
          else e0.props.content }⟩ : Elem) ∈
        elemsTop (contentSecurityPolicyHead nonce res tree).2 ∧
      getHeader (contentSecurityPolicyHead nonce res tree).1 cspName =
        some (if includesSub nonceLit e0.props.content ||
            includesSub nonceLit h then
          replaceAllStr nonceLit (nonceRepl nonce) h
        else h)) := by
  constructor
  · intro nonce res tree e0 h hm hh hne
    obtain ⟨hmem, htag⟩ := getMetaCSPTree_mem hm
    rw [cspTree_of_meta_of_hdr nonce hm hh hne]
    by_cases hnc : (includesSub nonceLit e0.props.content ||
        includesSub nonceLit h) = true
    · simp only [hnc, if_true]
      rw [createTree_of_hdr nonce (some e0) hne]
      exact ⟨metaMem_createTree nonce hmem htag _ _,
        getHeader_setHeader_self _ _ _⟩
    · simp only [Bool.not_eq_true] at hnc
      simp only [hnc, Bool.false_eq_true, if_false]
      exact ⟨hmem, hh⟩
  · intro nonce res tree e0 h hm hh hne
    obtain ⟨hmem, htag⟩ := getMetaCSPHead_mem hm
    rw [cspHead_of_meta_of_hdr nonce hm hh hne]
    by_cases hnc : (includesSub nonceLit e0.props.content ||
        includesSub nonceLit h) = true
    · simp only [hnc, if_true]
      rw [createHead_of_hdr nonce (some e0) hne]
      exact ⟨metaMem_createHead nonce hmem htag _ _,
        getHeader_setHeader_self _ _ _⟩
    · simp only [Bool.not_eq_true] at hnc
      simp only [hnc, Bool.false_eq_true, if_false]
      exact ⟨hmem, hh⟩

theorem c6_header_precedence_witness :
    getMetaCSPTree cexPlainMetaTree =
        some ⟨1, metaTag,
          { httpEquiv := some cspName, content := strL ("default-src a") }⟩ ∧
      getHeader (rCspOf (strL ("script-src nonce"))) cspName =
        some (strL ("script-src nonce")) ∧
      strL ("script-src nonce") ≠ [] ∧
      ((⟨1, metaTag,
        { httpEquiv := some cspName,
          content := if includesSub nonceLit (strL ("default-src a")) ||
              includesSub nonceLit (strL ("script-src nonce")) then
            replaceAllStr nonceLit (nonceRepl vW) (strL ("default-src a"))
          else strL ("default-src a") }⟩ : Elem) ∈
        elemsF (contentSecurityPolicyTree vW
          (rCspOf (strL ("script-src nonce"))) cexPlainMetaTree).2 ∧
      getHeader (contentSecurityPolicyTree vW
          (rCspOf (strL ("script-src nonce"))) cexPlainMetaTree).1 cspName =
        some (if includesSub nonceLit (strL ("default-src a")) ||
            includesSub nonceLit (strL ("script-src nonce")) then
          replaceAllStr nonceLit (nonceRepl vW) (strL ("script-src nonce"))
        else strL ("script-src nonce"))) :=
  ⟨by decide, by decide, by decide,
    c6_header_precedence.1 vW (rCspOf (strL ("script-src nonce"))) cexPlainMetaTree
      ⟨1, metaTag, { httpEquiv := some cspName, content := strL ("default-src a") }⟩
      (strL ("script-src nonce")) (by decide) (by decide) (by decide)⟩

/-! ## Claim C10 — frame effect of contentSecurityPolicy -/

/-- C10: in both implementations, the only response mutation
`contentSecurityPolicy` can perform is setting the `content-security-policy`
header — every other header and the body are unchanged — and when neither a
meta CSP element nor a CSP header value exists, the response and the tree are
returned entirely unchanged. -/
theorem c10_frame_effect :
    (∀ (nonce : Str) (res : Response) (tree : Forest) (name : Str),
      name ≠ cspName →
      getHeader (contentSecurityPolicyTree nonce res tree).1 name =
        getHeader res name ∧
      (contentSecurityPolicyTree nonce res tree).1.body = res.body) ∧
    (∀ (nonce : Str) (res : Response) (tree : Forest),
      getMetaCSPTree tree = none → getHeader res cspName = none →
      contentSecurityPolicyTree nonce res tree = (res, tree)) ∧
    (∀ (nonce : Str) (res : Response) (tree : Forest) (name : Str),
      name ≠ cspName →
      getHeader (contentSecurityPolicyHead nonce res tree).1 name =
        getHeader res name ∧
      (contentSecurityPolicyHead nonce res tree).1.body = res.body) ∧
    (∀ (nonce : Str) (res : Response) (tree : Forest),
      getMetaCSPHead tree = none → getHeader res cspName = none →
      contentSecurityPolicyHead nonce res tree = (res, tree)) := by
  refine ⟨?_, ?_, ?_, ?_⟩
  · intro nonce res tree name hname
    by_cases hth : truthyS (getHeader res cspName) = true
    · obtain ⟨h, hh, hne⟩ : ∃ h, getHeader res cspName = some h ∧ h ≠ [] := by
        cases hg : getHeader res cspName with
        | none => rw [hg] at hth; exact absurd hth (by simp [truthyS])
        | some h =>
          refine ⟨h, rfl, ?_⟩
          rw [hg] at hth
          simpa [truthyS] using hth
      cases hm : getMetaCSPTree tree with
      | none =>
        rw [cspTree_of_noMeta_of_hdr nonce hm hh hne]
        by_cases hnc : includesSub nonceLit h = true
        · simp only [hnc, if_true]
          rw [createTree_of_hdr nonce none hne]
          exact ⟨getHeader_setHeader_other res _ hname, rfl⟩
        · simp only [Bool.not_eq_true] at hnc
          simp only [hnc, Bool.false_eq_true, if_false]
          simp
      | some e0 =>
        rw [cspTree_of_meta_of_hdr nonce hm hh hne]
        by_cases hnc : (includesSub nonceLit e0.props.content ||
            includesSub nonceLit h) = true
        · simp only [hnc, if_true]
          rw [createTree_of_hdr nonce (some e0) hne]
          exact ⟨getHeader_setHeader_other res _ hname, rfl⟩
        · simp only [Bool.not_eq_true] at hnc
          simp only [hnc, Bool.false_eq_true, if_false]
          simp
    · have hh : truthyS (getHeader res cspName) = false :=
        eq_false_of_ne_true hth
      cases hm : getMetaCSPTree tree with
      | none => rw [cspTree_noop nonce hm hh]; exact ⟨rfl, rfl⟩
      | some e0 =>
        rw [cspTree_of_meta_of_noHdr nonce hm hh]
        by_cases hkp : e0.props.keepAsMeta = false
        · rw [if_pos hkp]
          by_cases hnc : includesSub nonceLit e0.props.content = true
          · simp only [hnc, if_true]
            rw [createTree_of_noHdr nonce e0 hh]
            exact ⟨getHeader_setHeader_other res _ hname, rfl⟩
          · simp only [Bool.not_eq_true] at hnc
            simp only [hnc, Bool.false_eq_true, if_false]
            exact ⟨getHeader_setHeader_other res _ hname, rfl⟩
        · rw [if_neg hkp]
          by_cases hnc : includesSub nonceLit e0.props.content = true
          · simp only [hnc, if_true]
            rw [createTree_of_noHdr nonce e0 hh]
            exact ⟨rfl, rfl⟩
          · simp only [Bool.not_eq_true] at hnc
            simp only [hnc, Bool.false_eq_true, if_false]
            simp
  · intro nonce res tree hm hhdr
    exact cspTree_noop nonce hm (by rw [hhdr]; rfl)
  · intro nonce res tree name hname
    by_cases hth : truthyS (getHeader res cspName) = true
    · obtain ⟨h, hh, hne⟩ : ∃ h, getHeader res cspName = some h ∧ h ≠ [] := by
        cases hg : getHeader res cspName with
        | none => rw [hg] at hth; exact absurd hth (by simp [truthyS])
        | some h =>
          refine ⟨h, rfl, ?_⟩
          rw [hg] at hth
          simpa [truthyS] using hth
      cases hm : getMetaCSPHead tree with
      | none =>
        rw [cspHead_of_noMeta_of_hdr nonce hm hh hne]
        by_cases hnc : includesSub nonceLit h = true
        · simp only [hnc, if_true]
          rw [createHead_of_hdr nonce none hne]
          exact ⟨getHeader_setHeader_other res _ hname, rfl⟩
        · simp only [Bool.not_eq_true] at hnc
          simp only [hnc, Bool.false_eq_true, if_false]
          simp
      | some e0 =>
        rw [cspHead_of_meta_of_hdr nonce hm hh hne]
        by_cases hnc : (includesSub nonceLit e0.props.content ||
            includesSub nonceLit h) = true
        · simp only [hnc, if_true]
          rw [createHead_of_hdr nonce (some e0) hne]
          exact ⟨getHeader_setHeader_other res _ hname, rfl⟩
        · simp only [Bool.not_eq_true] at hnc
          simp only [hnc, Bool.false_eq_true, if_false]
          simp
    · have hh : truthyS (getHeader res cspName) = false :=
        eq_false_of_ne_true hth
      cases hm : getMetaCSPHead tree with
      | none => rw [cspHead_noop nonce hm hh]; exact ⟨rfl, rfl⟩
      | some e0 =>
        rw [cspHead_of_meta_of_noHdr nonce hm hh]
        by_cases hkp : e0.props.keepAsMeta = false
        · rw [if_pos hkp]
          by_cases hnc : includesSub nonceLit e0.props.content = true
          · simp only [hnc, if_true]
            rw [createHead_of_noHdr nonce e0 hh]
            exact ⟨getHeader_setHeader_other res _ hname, rfl⟩
          · simp only [Bool.not_eq_true] at hnc
            simp only [hnc, Bool.false_eq_true, if_false]
            exact ⟨getHeader_setHeader_other res _ hname, rfl⟩
        · rw [if_neg hkp]
          by_cases hnc : includesSub nonceLit e0.props.content = true
          · simp only [hnc, if_true]
            rw [createHead_of_noHdr nonce e0 hh]
            exact ⟨rfl, rfl⟩
          · simp only [Bool.not_eq_true] at hnc
            simp only [hnc, Bool.false_eq_true, if_false]
            simp
  · intro nonce res tree hm hhdr
    exact cspHead_noop nonce hm (by rw [hhdr]; rfl)

theorem c10_frame_effect_witness :
    strL ("x-served-by") ≠ cspName ∧
      (getHeader (contentSecurityPolicyTree vW (rCspOf (strL ("script-src nonce")))
          witScriptTree).1 (strL ("x-served-by")) =
        getHeader (rCspOf (strL ("script-src nonce"))) (strL ("x-served-by")) ∧
      (contentSecurityPolicyTree vW (rCspOf (strL ("script-src nonce")))
          witScriptTree).1.body = (rCspOf (strL ("script-src nonce"))).body) ∧
      getMetaCSPTree cexNestedTree = none ∧
      getHeader rEmpty cspName = none ∧
      contentSecurityPolicyTree vW rEmpty cexNestedTree = (rEmpty, cexNestedTree) :=
  ⟨by decide,
    c10_frame_effect.1 vW (rCspOf (strL ("script-src nonce"))) witScriptTree
      (strL ("x-served-by")) (by decide),
    by decide, by decide,
    c10_frame_effect.2.1 vW rEmpty cexNestedTree (by decide) (by decide)⟩

/-! ## Characterisation of the stamping passes -/

theorem script_ne_style : scriptTag ≠ styleTag := by decide
theorem script_ne_link : scriptTag ≠ linkTag := by decide
theorem style_ne_script : styleTag ≠ scriptTag := by decide
theorem style_ne_link : styleTag ≠ linkTag := by decide
theorem link_ne_script : linkTag ≠ scriptTag := by decide
theorem link_ne_style : linkTag ≠ styleTag := by decide

theorem gScript_self (nonce : Str) (i : Nat) (pr : Props) :
    gScript nonce i scriptTag pr = { pr with nonce := some nonce } := by
  rw [gScript, if_pos rfl]

theorem gStyle_self (nonce : Str) (i : Nat) (pr : Props) :
    gStyle nonce i styleTag pr = { pr with nonce := some nonce } := by
  rw [gStyle, if_pos rfl]

theorem gLinkExact_self (nonce : Str) (i : Nat) {pr : Props}
    (hrel : pr.rel = [stylesheetLit]) :
    gLinkExact nonce i linkTag pr = { pr with nonce := some nonce } := by
  rw [gLinkExact, if_pos ⟨rfl, hrel⟩]

theorem gLinkExact_of_rel (nonce : Str) (i : Nat) (t : Str) {pr : Props}
    (hrel : pr.rel ≠ [stylesheetLit]) : gLinkExact nonce i t pr = pr := by
  rw [gLinkExact, if_neg (fun hc => hrel hc.2)]

theorem gStyleLinkHead_style (nonce : Str) (i : Nat) (pr : Props) :
    gStyleLinkHead nonce i styleTag pr = { pr with nonce := some nonce } := by
  rw [gStyleLinkHead, if_pos (Or.inl rfl)]

theorem gStyleLinkHead_link (nonce : Str) (i : Nat) {pr : Props}
    (hrel : pr.rel.head? = some stylesheetLit) :
    gStyleLinkHead nonce i linkTag pr = { pr with nonce := some nonce } := by
  rw [gStyleLinkHead, if_pos (Or.inr ⟨rfl, hrel⟩)]

theorem gStyleLinkHead_link_of_rel (nonce : Str) (i : Nat) {pr : Props}
    (hrel : pr.rel.head? ≠ some stylesheetLit) :
    gStyleLinkHead nonce i linkTag pr = pr := by
  rw [gStyleLinkHead, if_neg]
  rintro (hc | hc)
  · exact link_ne_style hc
  · exact hrel hc.2

theorem gContent_rel (mid : Nat) (nonce : Str) (i : Nat) (t : Str) (pr : Props) :
    (gContent mid nonce i t pr).rel = pr.rel := by
  rw [gContent]
  split <;> rfl

theorem gKeepFalse_rel (mid : Nat) (i : Nat) (t : Str) (pr : Props) :
    (gKeepFalse mid i t pr).rel = pr.rel := by
  rw [gKeepFalse]
  split <;> rfl

theorem mem_mapPropsF_decomp {g : Nat → Str → Props → Props} {f : Forest}
    {e : Elem} (he : e ∈ elemsF (mapPropsF g f)) :
    ∃ e1 ∈ elemsF f, e = ⟨e1.id, e1.tag, g e1.id e1.tag e1.props⟩ := by
  rw [elemsF_mapPropsF] at he
  obtain ⟨e1, h1, h2⟩ := List.mem_map.mp he
  exact ⟨e1, h1, h2.symm⟩

theorem mem_elemsTop_mapPropsF_decomp {g : Nat → Str → Props → Props}
    {f : Forest} {e : Elem} (he : e ∈ elemsTop (mapPropsF g f)) :
    ∃ e1 ∈ elemsTop f, e = ⟨e1.id, e1.tag, g e1.id e1.tag e1.props⟩ := by
  rw [elemsTop_mapPropsF] at he
  obtain ⟨e1, h1, h2⟩ := List.mem_map.mp he
  exact ⟨e1, h1, h2.symm⟩

theorem mem_elemsTop_mapPropsTop_decomp {g : Nat → Str → Props → Props}
    {f : Forest} {e : Elem} (he : e ∈ elemsTop (mapPropsTop g f)) :
    ∃ e1 ∈ elemsTop f, e = ⟨e1.id, e1.tag, g e1.id e1.tag e1.props⟩ := by
  rw [elemsTop_mapPropsTop] at he
  obtain ⟨e1, h1, h2⟩ := List.mem_map.mp he
  exact ⟨e1, h1, h2.symm⟩

/-- Decompose membership in the tree module's stamped forest: every element
is the image of an element of the base forest under the conditional
script/style/link stamping passes. -/
theorem mem_ST_tree {nonce : Str} {base : Forest} {sF stF : Bool} {e : Elem}
    (he : e ∈ elemsF (if stF then
        mapPropsF (gLinkExact nonce) (mapPropsF (gStyle nonce)
          (if sF then mapPropsF (gScript nonce) base else base))
      else (if sF then mapPropsF (gScript nonce) base else base))) :
    ∃ e1 ∈ elemsF base, e = ⟨e1.id, e1.tag,
      (if stF then
        gLinkExact nonce e1.id e1.tag (gStyle nonce e1.id e1.tag
          (if sF then gScript nonce e1.id e1.tag e1.props else e1.props))
      else (if sF then gScript nonce e1.id e1.tag e1.props else e1.props))⟩ := by
  cases sF <;> cases stF <;> simp only [Bool.false_eq_true, if_false, if_true] at he ⊢
  · exact ⟨e, he, rfl⟩
  · obtain ⟨e1, h1, rfl⟩ := mem_mapPropsF_decomp he
    obtain ⟨e2, h2, rfl⟩ := mem_mapPropsF_decomp h1
    exact ⟨e2, h2, rfl⟩
  · obtain ⟨e1, h1, rfl⟩ := mem_mapPropsF_decomp he
    exact ⟨e1, h1, rfl⟩
  · obtain ⟨e1, h1, rfl⟩ := mem_mapPropsF_decomp he
    obtain ⟨e2, h2, rfl⟩ := mem_mapPropsF_decomp h1
    obtain ⟨e3, h3, rfl⟩ := mem_mapPropsF_decomp h2
    exact ⟨e3, h3, rfl⟩

/-- Decompose membership among the direct children of the head module's
stamped forest. -/
theorem mem_ST_head {nonce : Str} {base : Forest} {sF stF : Bool} {e : Elem}
    (he : e ∈ elemsTop (if stF then
        mapPropsTop (gStyleLinkHead nonce)
          (if sF then mapPropsTop (gScript nonce) base else base)
      else (if sF then mapPropsTop (gScript nonce) base else base))) :
    ∃ e1 ∈ elemsTop base, e = ⟨e1.id, e1.tag,
      (if stF then
        gStyleLinkHead nonce e1.id e1.tag
          (if sF then gScript nonce e1.id e1.tag e1.props else e1.props)
      else (if sF then gScript nonce e1.id e1.tag e1.props else e1.props))⟩ := by
  cases sF <;> cases stF <;> simp only [Bool.false_eq_true, if_false, if_true] at he ⊢
  · exact ⟨e, he, rfl⟩
  · obtain ⟨e1, h1, rfl⟩ := mem_elemsTop_mapPropsTop_decomp he
    exact ⟨e1, h1, rfl⟩
  · obtain ⟨e1, h1, rfl⟩ := mem_elemsTop_mapPropsTop_decomp he
    exact ⟨e1, h1, rfl⟩
  · obtain ⟨e1, h1, rfl⟩ := mem_elemsTop_mapPropsTop_decomp he
    obtain ⟨e2, h2, rfl⟩ := mem_elemsTop_mapPropsTop_decomp h1
    exact ⟨e2, h2, rfl⟩

theorem gScript_rel (nonce : Str) (i : Nat) (t : Str) (pr : Props) :
    (gScript nonce i t pr).rel = pr.rel := by
  rw [gScript]
  split <;> rfl

theorem gStyle_rel (nonce : Str) (i : Nat) (t : Str) (pr : Props) :
    (gStyle nonce i t pr).rel = pr.rel := by
  rw [gStyle]
  split <;> rfl

theorem gLinkExact_rel (nonce : Str) (i : Nat) (t : Str) (pr : Props) :
    (gLinkExact nonce i t pr).rel = pr.rel := by
  rw [gLinkExact]
  split <;> rfl

theorem gStyleLinkHead_rel (nonce : Str) (i : Nat) (t : Str) (pr : Props) :
    (gStyleLinkHead nonce i t pr).rel = pr.rel := by
  rw [gStyleLinkHead]
  split <;> rfl

/-- The nonce attribute of any element of the tree module's stamped forest:
`some nonce` exactly on the stamped element classes, the previous value
otherwise. -/
theorem ST_tree_nonce {nonce : Str} {base : Forest} {sF stF : Bool} {e : Elem}
    (he : e ∈ elemsF (if stF then
        mapPropsF (gLinkExact nonce) (mapPropsF (gStyle nonce)
          (if sF then mapPropsF (gScript nonce) base else base))
      else (if sF then mapPropsF (gScript nonce) base else base))) :
    ∃ e1 ∈ elemsF base, e1.id = e.id ∧ e1.tag = e.tag ∧
      e1.props.rel = e.props.rel ∧
      e.props.nonce = (if (e.tag = scriptTag ∧ sF = true) ∨
          ((e.tag = styleTag ∨ (e.tag = linkTag ∧ e.props.rel = [stylesheetLit])) ∧
            stF = true) then
        some nonce
      else e1.props.nonce) := by
  obtain ⟨e1, h1, rfl⟩ := mem_ST_tree he
  refine ⟨e1, h1, rfl, rfl, ?_, ?_⟩
  · cases sF <;> cases stF <;>
      simp [gScript_rel, gStyle_rel, gLinkExact_rel]
  · by_cases hsc : e1.tag = scriptTag
    · cases sF <;> cases stF <;>
        simp [hsc, gScript_self, gScript_of_ne, gStyle_self, gStyle_of_ne,
          gLinkExact_self, gLinkExact_of_ne, gLinkExact_of_rel,
          script_ne_style, script_ne_link, style_ne_script, style_ne_link,
          link_ne_script, link_ne_style, gScript_rel, gStyle_rel, gLinkExact_rel]
    · by_cases hst : e1.tag = styleTag
      · cases sF <;> cases stF <;>
          simp [hst, gScript_self, gScript_of_ne, gStyle_self, gStyle_of_ne,
            gLinkExact_self, gLinkExact_of_ne, gLinkExact_of_rel,
            script_ne_style, script_ne_link, style_ne_script, style_ne_link,
            link_ne_script, link_ne_style, gScript_rel, gStyle_rel, gLinkExact_rel]
      · by_cases hlk : e1.tag = linkTag
        · by_cases hrel : e1.props.rel = [stylesheetLit]
          · cases sF <;> cases stF <;>
              simp [hlk, hrel, gScript_self, gScript_of_ne, gStyle_self,
                gStyle_of_ne, gLinkExact_self, gLinkExact_of_ne,
                gLinkExact_of_rel, script_ne_style, script_ne_link,
                style_ne_script, style_ne_link, link_ne_script, link_ne_style,
                gScript_rel, gStyle_rel, gLinkExact_rel]
          · cases sF <;> cases stF <;>
              simp [hlk, hrel, gScript_self, gScript_of_ne, gStyle_self,
                gStyle_of_ne, gLinkExact_self, gLinkExact_of_ne,
                gLinkExact_of_rel, script_ne_style, script_ne_link,
                style_ne_script, style_ne_link, link_ne_script, link_ne_style,
                gScript_rel, gStyle_rel, gLinkExact_rel]
        · cases sF <;> cases stF <;>
            simp [hsc, hst, hlk, gScript_of_ne, gStyle_of_ne, gLinkExact_of_ne,
              gScript_rel, gStyle_rel, gLinkExact_rel]

/-- The nonce attribute of any direct child of the head module's stamped
forest. -/
theorem ST_head_nonce {nonce : Str} {base : Forest} {sF stF : Bool} {e : Elem}
    (he : e ∈ elemsTop (if stF then
        mapPropsTop (gStyleLinkHead nonce)
          (if sF then mapPropsTop (gScript nonce) base else base)
      else (if sF then mapPropsTop (gScript nonce) base else base))) :
    ∃ e1 ∈ elemsTop base, e1.id = e.id ∧ e1.tag = e.tag ∧
      e1.props.rel = e.props.rel ∧
      e.props.nonce = (if (e.tag = scriptTag ∧ sF = true) ∨
          ((e.tag = styleTag ∨
            (e.tag = linkTag ∧ e.props.rel.head? = some stylesheetLit)) ∧
            stF = true) then
        some nonce
      else e1.props.nonce) := by
  obtain ⟨e1, h1, rfl⟩ := mem_ST_head he
  refine ⟨e1, h1, rfl, rfl, ?_, ?_⟩
  · cases sF <;> cases stF <;>
      simp [gScript_rel, gStyleLinkHead_rel]
  · by_cases hsc : e1.tag = scriptTag
    · have hns : e1.tag ≠ styleTag := by rw [hsc]; exact script_ne_style
      have hnl : e1.tag ≠ linkTag := by rw [hsc]; exact script_ne_link
      cases sF <;> cases stF <;>
        simp [hsc, gScript_self, gScript_of_ne, gStyleLinkHead_of_ne,
          gStyleLinkHead_style, gStyleLinkHead_link, gStyleLinkHead_link_of_rel,
          script_ne_style, script_ne_link, style_ne_script, style_ne_link,
          link_ne_script, link_ne_style, gScript_rel, gStyleLinkHead_rel]
    · by_cases hst : e1.tag = styleTag
      · cases sF <;> cases stF <;>
          simp [hst, gScript_self, gScript_of_ne, gStyleLinkHead_of_ne,
            gStyleLinkHead_style, gStyleLinkHead_link, gStyleLinkHead_link_of_rel,
            script_ne_style, script_ne_link, style_ne_script, style_ne_link,
            link_ne_script, link_ne_style, gScript_rel, gStyleLinkHead_rel]
      · by_cases hlk : e1.tag = linkTag
        · by_cases hrel : e1.props.rel.head? = some stylesheetLit
          · cases sF <;> cases stF <;>
              simp [hlk, hrel, gScript_self, gScript_of_ne, gStyleLinkHead_of_ne,
                gStyleLinkHead_style, gStyleLinkHead_link,
                gStyleLinkHead_link_of_rel, script_ne_style, script_ne_link,
                style_ne_script, style_ne_link, link_ne_script, link_ne_style,
                gScript_rel, gStyleLinkHead_rel]
          · cases sF <;> cases stF <;>
              simp [hlk, hrel, gScript_self, gScript_of_ne, gStyleLinkHead_of_ne,
                gStyleLinkHead_style, gStyleLinkHead_link,
                gStyleLinkHead_link_of_rel, script_ne_style, script_ne_link,
                style_ne_script, style_ne_link, link_ne_script, link_ne_style,
                gScript_rel, gStyleLinkHead_rel]
        · cases sF <;> cases stF <;>
            simp [hsc, hst, hlk, gScript_of_ne, gStyleLinkHead_of_ne,
              gScript_rel, gStyleLinkHead_rel]

/-! ## Flag and layer glue lemmas -/

theorem scriptFlag_noHdr {hdr : Option Str} (e0 : Elem)
    (hh : truthyS hdr = false) :
    scriptFlag (some e0) hdr = dirHasNonce e0.props.content scriptSrcLit := by
  simp [scriptFlag, hh]

theorem styleFlag_noHdr {hdr : Option Str} (e0 : Elem)
    (hh : truthyS hdr = false) :
    styleFlag (some e0) hdr = dirHasNonce e0.props.content styleSrcLit := by
  simp [styleFlag, hh]

theorem scriptFlag_hdr (mc : Option Elem) {h : Str} (hne : h ≠ []) :
    scriptFlag mc (some h) =
      ((match mc with
        | some e => dirHasNonce e.props.content scriptSrcLit
        | none => false) || dirHasNonce h scriptSrcLit) := by
  have hth : truthyS (some h) = true := by simp [truthyS, hne]
  simp [scriptFlag, hth]

theorem styleFlag_hdr (mc : Option Elem) {h : Str} (hne : h ≠ []) :
    styleFlag mc (some h) =
      ((match mc with
        | some e => dirHasNonce e.props.content styleSrcLit
        | none => false) || dirHasNonce h styleSrcLit) := by
  have hth : truthyS (some h) = true := by simp [truthyS, hne]
  simp [styleFlag, hth]

theorem nonceCondOf_noHdr {hdr : Option Str} (mc : Option Elem)
    (hh : truthyS hdr = false) :
    nonceCondOf mc hdr =
      (match mc with
        | some e => includesSub nonceLit e.props.content
        | none => false) := by
  simp [nonceCondOf, hh]

theorem nonceCondOf_hdr (mc : Option Elem) {h : Str} (hne : h ≠ []) :
    nonceCondOf mc (some h) =
      ((match mc with
        | some e => includesSub nonceLit e.props.content
        | none => false) || includesSub nonceLit h) := by
  have hth : truthyS (some h) = true := by simp [truthyS, hne]
  simp [nonceCondOf, hth]

theorem base_decomp_tree {mid : Nat} {nonce : Str} {tree : Forest} {e1 : Elem}
    (he : e1 ∈ elemsF (mapPropsF (gContent mid nonce) tree)) :
    ∃ e2 ∈ elemsF tree, e2.id = e1.id ∧ e2.tag = e1.tag ∧
      e2.props.rel = e1.props.rel ∧ e2.props.nonce = e1.props.nonce := by
  obtain ⟨e2, h2, rfl⟩ := mem_mapPropsF_decomp he
  refine ⟨e2, h2, rfl, rfl, ?_, ?_⟩
  · exact (gContent_rel mid nonce e2.id e2.tag e2.props).symm
  · exact (gContent_nonce mid nonce e2.id e2.tag e2.props).symm

theorem base_decomp_top {mid : Nat} {nonce : Str} {tree : Forest} {e1 : Elem}
    (he : e1 ∈ elemsTop (mapPropsF (gContent mid nonce) tree)) :
    ∃ e2 ∈ elemsTop tree, e2.id = e1.id ∧ e2.tag = e1.tag ∧
      e2.props.rel = e1.props.rel ∧ e2.props.nonce = e1.props.nonce := by
  obtain ⟨e2, h2, rfl⟩ := mem_elemsTop_mapPropsF_decomp he
  refine ⟨e2, h2, rfl, rfl, ?_, ?_⟩
  · exact (gContent_rel mid nonce e2.id e2.tag e2.props).symm
  · exact (gContent_nonce mid nonce e2.id e2.tag e2.props).symm

theorem keep_decomp_tree {mid : Nat} {f : Forest} {e : Elem}
    (he : e ∈ elemsF (mapPropsF (gKeepFalse mid) f)) :
    ∃ e1 ∈ elemsF f, e1.id = e.id ∧ e1.tag = e.tag ∧
      e1.props.rel = e.props.rel ∧ e1.props.nonce = e.props.nonce := by
  obtain ⟨e1, h1, rfl⟩ := mem_mapPropsF_decomp he
  refine ⟨e1, h1, rfl, rfl, ?_, ?_⟩
  · exact (gKeepFalse_rel mid e1.id e1.tag e1.props).symm
  · exact (gKeepFalse_nonce mid e1.id e1.tag e1.props).symm

theorem keep_decomp_top {mid : Nat} {f : Forest} {e : Elem}
    (he : e ∈ elemsTop (mapPropsF (gKeepFalse mid) f)) :
    ∃ e1 ∈ elemsTop f, e1.id = e.id ∧ e1.tag = e.tag ∧
      e1.props.rel = e.props.rel ∧ e1.props.nonce = e.props.nonce := by
  obtain ⟨e1, h1, rfl⟩ := mem_elemsTop_mapPropsF_decomp he
  refine ⟨e1, h1, rfl, rfl, ?_, ?_⟩
  · exact (gKeepFalse_rel mid e1.id e1.tag e1.props).symm
  · exact (gKeepFalse_nonce mid e1.id e1.tag e1.props).symm

theorem nonceCharCoreTree {nonce : Str} {tree base : Forest} {sF stF : Bool}
    {e : Elem}
    (hbase : ∀ e1 ∈ elemsF base, ∃ e2 ∈ elemsF tree,
      e2.props.nonce = e1.props.nonce)
    (hfr : freshNonce nonce tree)
    (he : e ∈ elemsF (if stF then
        mapPropsF (gLinkExact nonce) (mapPropsF (gStyle nonce)
          (if sF then mapPropsF (gScript nonce) base else base))
      else (if sF then mapPropsF (gScript nonce) base else base))) :
    e.props.nonce = some nonce ↔
      ((e.tag = scriptTag ∧ sF = true) ∨
        ((e.tag = styleTag ∨ (e.tag = linkTag ∧ e.props.rel = [stylesheetLit])) ∧
          stF = true)) := by
  obtain ⟨e1, h1, _, _, _, hn⟩ := ST_tree_nonce he
  obtain ⟨e2, h2, hn2⟩ := hbase e1 h1
  rw [hn]
  by_cases hC : (e.tag = scriptTag ∧ sF = true) ∨
      ((e.tag = styleTag ∨ (e.tag = linkTag ∧ e.props.rel = [stylesheetLit])) ∧
        stF = true)
  · rw [if_pos hC]
    exact ⟨fun _ => hC, fun _ => rfl⟩
  · rw [if_neg hC]
    refine ⟨fun h => ?_, fun h => absurd h hC⟩
    exact absurd (hn2.trans h) (hfr e2 h2)

theorem nonceCharCoreHead {nonce : Str} {tree base : Forest} {sF stF : Bool}
    {e : Elem}
    (hbase : ∀ e1 ∈ elemsTop base, ∃ e2 ∈ elemsTop tree,
      e2.props.nonce = e1.props.nonce)
    (hfr : freshNonceTop nonce tree)
    (he : e ∈ elemsTop (if stF then
        mapPropsTop (gStyleLinkHead nonce)
          (if sF then mapPropsTop (gScript nonce) base else base)
      else (if sF then mapPropsTop (gScript nonce) base else base))) :
    e.props.nonce = some nonce ↔
      ((e.tag = scriptTag ∧ sF = true) ∨
        ((e.tag = styleTag ∨
          (e.tag = linkTag ∧ e.props.rel.head? = some stylesheetLit)) ∧
          stF = true)) := by
  obtain ⟨e1, h1, _, _, _, hn⟩ := ST_head_nonce he
  obtain ⟨e2, h2, hn2⟩ := hbase e1 h1
  rw [hn]
  by_cases hC : (e.tag = scriptTag ∧ sF = true) ∨
      ((e.tag = styleTag ∨
        (e.tag = linkTag ∧ e.props.rel.head? = some stylesheetLit)) ∧
        stF = true)
  · rw [if_pos hC]
    exact ⟨fun _ => hC, fun _ => rfl⟩
  · rw [if_neg hC]
    refine ⟨fun h => ?_, fun h => absurd h hC⟩
    exact absurd (hn2.trans h) (hfr e2 h2)

/-! ## Nonce-consistency helper lemmas (tree module) -/

theorem elemIffTree (nonce : Str) (res : Response) (tree : Forest)
    (hfr : freshNonce nonce tree)
    (hcond : nonceCondOf (getMetaCSPTree tree) (getHeader res cspName) = true) :
    ∀ e ∈ elemsF (contentSecurityPolicyTree nonce res tree).2,
      e.props.nonce = some nonce ↔
        ((e.tag = scriptTag ∧
            scriptFlag (getMetaCSPTree tree) (getHeader res cspName) = true) ∨
          ((e.tag = styleTag ∨ (e.tag = linkTag ∧ e.props.rel = [stylesheetLit])) ∧
            styleFlag (getMetaCSPTree tree) (getHeader res cspName) = true)) := by
  intro e he
  by_cases hth : truthyS (getHeader res cspName) = true
  · obtain ⟨h, hh, hne⟩ : ∃ h, getHeader res cspName = some h ∧ h ≠ [] := by
      cases hg : getHeader res cspName with
      | none => rw [hg] at hth; exact absurd hth (by simp [truthyS])
      | some h =>
        refine ⟨h, rfl, ?_⟩
        rw [hg] at hth
        simpa [truthyS] using hth
    rw [hh]
    cases hm : getMetaCSPTree tree with
    | none =>
      rw [hm, hh, nonceCondOf_hdr none hne] at hcond
      simp only [Bool.false_or] at hcond
      rw [cspTree_of_noMeta_of_hdr nonce hm hh hne] at he
      rw [if_pos hcond] at he
      rw [createTree_of_hdr nonce none hne] at he
      exact nonceCharCoreTree (fun e1 h1 => ⟨e1, h1, rfl⟩) hfr he
    | some e0 =>
      rw [hm, hh, nonceCondOf_hdr (some e0) hne] at hcond
      rw [cspTree_of_meta_of_hdr nonce hm hh hne] at he
      rw [if_pos hcond] at he
      rw [createTree_of_hdr nonce (some e0) hne] at he
      refine nonceCharCoreTree ?_ hfr he
      intro e1 h1
      obtain ⟨e2, h2, _, _, _, hn⟩ := base_decomp_tree h1
      exact ⟨e2, h2, hn⟩
  · have hh : truthyS (getHeader res cspName) = false := eq_false_of_ne_true hth
    cases hm : getMetaCSPTree tree with
    | none =>
      rw [hm, nonceCondOf_noHdr none hh] at hcond
      exact absurd hcond (by simp)
    | some e0 =>
      rw [hm, nonceCondOf_noHdr (some e0) hh] at hcond
      rw [scriptFlag_noHdr e0 hh, styleFlag_noHdr e0 hh]
      rw [cspTree_of_meta_of_noHdr nonce hm hh] at he
      by_cases hkp : e0.props.keepAsMeta = false
      · rw [if_pos hkp] at he
        have he2 := (mem_remForest he).1
        rw [if_pos hcond] at he2
        rw [createTree_of_noHdr nonce e0 hh] at he2
        refine nonceCharCoreTree ?_ hfr he2
        intro e1 h1
        obtain ⟨e2, h2, _, _, _, hn⟩ := base_decomp_tree h1
        exact ⟨e2, h2, hn⟩
      · rw [if_neg hkp] at he
        obtain ⟨e1, h1, hid, htg, hrl, hnn⟩ := keep_decomp_tree he
        rw [if_pos hcond] at h1
        rw [createTree_of_noHdr nonce e0 hh] at h1
        have hiff : e1.props.nonce = some nonce ↔
            ((e1.tag = scriptTag ∧
                dirHasNonce e0.props.content scriptSrcLit = true) ∨
              ((e1.tag = styleTag ∨
                (e1.tag = linkTag ∧ e1.props.rel = [stylesheetLit])) ∧
                dirHasNonce e0.props.content styleSrcLit = true)) := by
          refine nonceCharCoreTree ?_ hfr h1
          intro e1 h1
          obtain ⟨e2, h2, _, _, _, hn⟩ := base_decomp_tree h1
          exact ⟨e2, h2, hn⟩
        rw [htg, hrl, hnn] at hiff
        exact hiff

/-! ## Nonce-consistency helper lemmas (head-fragment module) -/

theorem elemIffHead (nonce : Str) (res : Response) (tree : Forest)
    (hfr : freshNonceTop nonce tree)
    (hcond : nonceCondOf (getMetaCSPHead tree) (getHeader res cspName) = true) :
    ∀ e ∈ elemsTop (contentSecurityPolicyHead nonce res tree).2,
      e.props.nonce = some nonce ↔
        ((e.tag = scriptTag ∧
            scriptFlag (getMetaCSPHead tree) (getHeader res cspName) = true) ∨
          ((e.tag = styleTag ∨
            (e.tag = linkTag ∧ e.props.rel.head? = some stylesheetLit)) ∧
            styleFlag (getMetaCSPHead tree) (getHeader res cspName) = true)) := by
  intro e he
  by_cases hth : truthyS (getHeader res cspName) = true
  · obtain ⟨h, hh, hne⟩ : ∃ h, getHeader res cspName = some h ∧ h ≠ [] := by
      cases hg : getHeader res cspName with
      | none => rw [hg] at hth; exact absurd hth (by simp [truthyS])
      | some h =>
        refine ⟨h, rfl, ?_⟩
        rw [hg] at hth
        simpa [truthyS] using hth
    rw [hh]
    cases hm : getMetaCSPHead tree with
    | none =>
      rw [hm, hh, nonceCondOf_hdr none hne] at hcond
      simp only [Bool.false_or] at hcond
      rw [cspHead_of_noMeta_of_hdr nonce hm hh hne] at he
      rw [if_pos hcond] at he
      rw [createHead_of_hdr nonce none hne] at he
      exact nonceCharCoreHead (fun e1 h1 => ⟨e1, h1, rfl⟩) hfr he
    | some e0 =>
      rw [hm, hh, nonceCondOf_hdr (some e0) hne] at hcond
      rw [cspHead_of_meta_of_hdr nonce hm hh hne] at he
      rw [if_pos hcond] at he
      rw [createHead_of_hdr nonce (some e0) hne] at he
      refine nonceCharCoreHead ?_ hfr he
      intro e1 h1
      obtain ⟨e2, h2, _, _, _, hn⟩ := base_decomp_top h1
      exact ⟨e2, h2, hn⟩
  · have hh : truthyS (getHeader res cspName) = false := eq_false_of_ne_true hth
    cases hm : getMetaCSPHead tree with
    | none =>
      rw [hm, nonceCondOf_noHdr none hh] at hcond
      exact absurd hcond (by simp)
    | some e0 =>
      rw [hm, nonceCondOf_noHdr (some e0) hh] at hcond
      rw [scriptFlag_noHdr e0 hh, styleFlag_noHdr e0 hh]
      rw [cspHead_of_meta_of_noHdr nonce hm hh] at he
      by_cases hkp : e0.props.keepAsMeta = false
      · rw [if_pos hkp] at he
        have he2 := (mem_elemsTop_remForest he).1
        rw [if_pos hcond] at he2
        rw [createHead_of_noHdr nonce e0 hh] at he2
        refine nonceCharCoreHead ?_ hfr he2
        intro e1 h1
        obtain ⟨e2, h2, _, _, _, hn⟩ := base_decomp_top h1
        exact ⟨e2, h2, hn⟩
      · rw [if_neg hkp] at he
        obtain ⟨e1, h1, hid, htg, hrl, hnn⟩ := keep_decomp_top he
        rw [if_pos hcond] at h1
        rw [createHead_of_noHdr nonce e0 hh] at h1
        have hiff : e1.props.nonce = some nonce ↔
            ((e1.tag = scriptTag ∧
                dirHasNonce e0.props.content scriptSrcLit = true) ∨
              ((e1.tag = styleTag ∨
                (e1.tag = linkTag ∧ e1.props.rel.head? = some stylesheetLit)) ∧
                dirHasNonce e0.props.content styleSrcLit = true)) := by
          refine nonceCharCoreHead ?_ hfr h1
          intro e1 h1
          obtain ⟨e2, h2, _, _, _, hn⟩ := base_decomp_top h1
          exact ⟨e2, h2, hn⟩
        rw [htg, hrl, hnn] at hiff
        exact hiff

theorem reprTree (nonce : Str) (res : Response) (tree : Forest)
    (hcond : nonceCondOf (getMetaCSPTree tree) (getHeader res cspName) = true) :
    (truthyS (getHeader res cspName) = true →
      getHeader (contentSecurityPolicyTree nonce res tree).1 cspName =
        some (replaceAllStr nonceLit (nonceRepl nonce)
          ((getHeader res cspName).getD []))) ∧
    (∀ e0, getMetaCSPTree tree = some e0 →
      truthyS (getHeader res cspName) = true →
      (⟨e0.id, e0.tag,
        { e0.props with
          content := replaceAllStr nonceLit (nonceRepl nonce)
            e0.props.content }⟩ : Elem) ∈
        elemsF (contentSecurityPolicyTree nonce res tree).2) ∧
    (∀ e0, getMetaCSPTree tree = some e0 →
      truthyS (getHeader res cspName) = false → e0.props.keepAsMeta = true →
      (⟨e0.id, e0.tag,
        { e0.props with
          content := replaceAllStr nonceLit (nonceRepl nonce) e0.props.content,
          keepAsMeta := false }⟩ : Elem) ∈
        elemsF (contentSecurityPolicyTree nonce res tree).2) ∧
    (∀ e0, getMetaCSPTree tree = some e0 →
      truthyS (getHeader res cspName) = false → e0.props.keepAsMeta = false →
      getHeader (contentSecurityPolicyTree nonce res tree).1 cspName =
        some (replaceAllStr nonceLit (nonceRepl nonce) e0.props.content) ∧
      ∀ e ∈ elemsF (contentSecurityPolicyTree nonce res tree).2, e.id ≠ e0.id) := by
  refine ⟨?_, ?_, ?_, ?_⟩
  · intro hth
    obtain ⟨h, hh, hne⟩ : ∃ h, getHeader res cspName = some h ∧ h ≠ [] := by
      cases hg : getHeader res cspName with
      | none => rw [hg] at hth; exact absurd hth (by simp [truthyS])
      | some h =>
        refine ⟨h, rfl, ?_⟩
        rw [hg] at hth
        simpa [truthyS] using hth
    rw [hh]
    cases hm : getMetaCSPTree tree with
    | none =>
      rw [hm, hh, nonceCondOf_hdr none hne] at hcond
      simp only [Bool.false_or] at hcond
      rw [cspTree_of_noMeta_of_hdr nonce hm hh hne, if_pos hcond,
        createTree_of_hdr nonce none hne]
      exact getHeader_setHeader_self _ _ _
    | some e0 =>
      rw [hm, hh, nonceCondOf_hdr (some e0) hne] at hcond
      rw [cspTree_of_meta_of_hdr nonce hm hh hne, if_pos hcond,
        createTree_of_hdr nonce (some e0) hne]
      exact getHeader_setHeader_self _ _ _
  · intro e0 hm hth
    obtain ⟨h, hh, hne⟩ : ∃ h, getHeader res cspName = some h ∧ h ≠ [] := by
      cases hg : getHeader res cspName with
      | none => rw [hg] at hth; exact absurd hth (by simp [truthyS])
      | some h =>
        refine ⟨h, rfl, ?_⟩
        rw [hg] at hth
        simpa [truthyS] using hth
    obtain ⟨hmem, htag⟩ := getMetaCSPTree_mem hm
    rw [hm, hh, nonceCondOf_hdr (some e0) hne] at hcond
    rw [cspTree_of_meta_of_hdr nonce hm hh hne, if_pos hcond,
      createTree_of_hdr nonce (some e0) hne]
    exact metaMem_createTree nonce hmem htag _ _
  · intro e0 hm hh hk
    obtain ⟨hmem, htag⟩ := getMetaCSPTree_mem hm
    rw [hm, nonceCondOf_noHdr (some e0) hh] at hcond
    have hcond2 : includesSub nonceLit e0.props.content = true := hcond
    rw [cspTree_of_meta_of_noHdr nonce hm hh, if_neg (by rw [hk]; simp)]
    simp only [hcond2, eq_self_iff_true, if_true]
    rw [createTree_of_noHdr nonce e0 hh]
    have h2 := metaMem_createTree nonce hmem htag
      (dirHasNonce e0.props.content scriptSrcLit)
      (dirHasNonce e0.props.content styleSrcLit)
    have h3 := mem_elemsF_mapPropsF (gKeepFalse e0.id) h2
    rw [gKeepFalse_self] at h3
    simpa using h3
  · intro e0 hm hh hk
    rw [hm, nonceCondOf_noHdr (some e0) hh] at hcond
    have hcond2 : includesSub nonceLit e0.props.content = true := hcond
    rw [cspTree_of_meta_of_noHdr nonce hm hh, if_pos hk]
    simp only [hcond2, eq_self_iff_true, if_true]
    refine ⟨getHeader_setHeader_self _ _ _, ?_⟩
    intro e he
    exact (mem_remForest he).2

theorem reprHead (nonce : Str) (res : Response) (tree : Forest)
    (hcond : nonceCondOf (getMetaCSPHead tree) (getHeader res cspName) = true) :
    (truthyS (getHeader res cspName) = true →
      getHeader (contentSecurityPolicyHead nonce res tree).1 cspName =
        some (replaceAllStr nonceLit (nonceRepl nonce)
          ((getHeader res cspName).getD []))) ∧
    (∀ e0, getMetaCSPHead tree = some e0 →
      truthyS (getHeader res cspName) = true →
      (⟨e0.id, e0.tag,
        { e0.props with
          content := replaceAllStr nonceLit (nonceRepl nonce)
            e0.props.content }⟩ : Elem) ∈
        elemsTop (contentSecurityPolicyHead nonce res tree).2) ∧
    (∀ e0, getMetaCSPHead tree = some e0 →
      truthyS (getHeader res cspName) = false → e0.props.keepAsMeta = true →
      (⟨e0.id, e0.tag,
        { e0.props with
          content := replaceAllStr nonceLit (nonceRepl nonce) e0.props.content,
          keepAsMeta := false }⟩ : Elem) ∈
        elemsTop (contentSecurityPolicyHead nonce res tree).2) ∧
    (∀ e0, getMetaCSPHead tree = some e0 →
      truthyS (getHeader res cspName) = false → e0.props.keepAsMeta = false →
      getHeader (contentSecurityPolicyHead nonce res tree).1 cspName =
        some (replaceAllStr nonceLit (nonceRepl nonce) e0.props.content) ∧
      ∀ e ∈ elemsF (contentSecurityPolicyHead nonce res tree).2, e.id ≠ e0.id) := by
  refine ⟨?_, ?_, ?_, ?_⟩
  · intro hth
    obtain ⟨h, hh, hne⟩ : ∃ h, getHeader res cspName = some h ∧ h ≠ [] := by
      cases hg : getHeader res cspName with
      | none => rw [hg] at hth; exact absurd hth (by simp [truthyS])
      | some h =>
        refine ⟨h, rfl, ?_⟩
        rw [hg] at hth
        simpa [truthyS] using hth
    rw [hh]
    cases hm : getMetaCSPHead tree with
    | none =>
      rw [hm, hh, nonceCondOf_hdr none hne] at hcond
      simp only [Bool.false_or] at hcond
      rw [cspHead_of_noMeta_of_hdr nonce hm hh hne, if_pos hcond,
        createHead_of_hdr nonce none hne]
      exact getHeader_setHeader_self _ _ _
    | some e0 =>
      rw [hm, hh, nonceCondOf_hdr (some e0) hne] at hcond
      rw [cspHead_of_meta_of_hdr nonce hm hh hne, if_pos hcond,
        createHead_of_hdr nonce (some e0) hne]
      exact getHeader_setHeader_self _ _ _
  · intro e0 hm hth
    obtain ⟨h, hh, hne⟩ : ∃ h, getHeader res cspName = some h ∧ h ≠ [] := by
      cases hg : getHeader res cspName with
      | none => rw [hg] at hth; exact absurd hth (by simp [truthyS])
      | some h =>
        refine ⟨h, rfl, ?_⟩
        rw [hg] at hth
        simpa [truthyS] using hth
    obtain ⟨hmem, htag⟩ := getMetaCSPHead_mem hm
    rw [hm, hh, nonceCondOf_hdr (some e0) hne] at hcond
    rw [cspHead_of_meta_of_hdr nonce hm hh hne, if_pos hcond,
      createHead_of_hdr nonce (some e0) hne]
    exact metaMem_createHead nonce hmem htag _ _
  · intro e0 hm hh hk
    obtain ⟨hmem, htag⟩ := getMetaCSPHead_mem hm
    rw [hm, nonceCondOf_noHdr (some e0) hh] at hcond
    have hcond2 : includesSub nonceLit e0.props.content = true := hcond
    rw [cspHead_of_meta_of_noHdr nonce hm hh, if_neg (by rw [hk]; simp)]
    simp only [hcond2, eq_self_iff_true, if_true]
    rw [createHead_of_noHdr nonce e0 hh]
    have h2 := metaMem_createHead nonce hmem htag
      (dirHasNonce e0.props.content scriptSrcLit)
      (dirHasNonce e0.props.content styleSrcLit)
    have h3 := mem_elemsTop_mapPropsF (gKeepFalse e0.id) h2
    rw [gKeepFalse_self] at h3
    simpa using h3
  · intro e0 hm hh hk
    rw [hm, nonceCondOf_noHdr (some e0) hh] at hcond
    have hcond2 : includesSub nonceLit e0.props.content = true := hcond
    rw [cspHead_of_meta_of_noHdr nonce hm hh, if_pos hk]
    simp only [hcond2, eq_self_iff_true, if_true]
    refine ⟨getHeader_setHeader_self _ _ _, ?_⟩
    intro e he
    exact (mem_remForest he).2

/-! ## Claim C1 — nonce consistency -/

/-- C1 as stated is false on the code: in the head-fragment implementation a
`script` element nested below a direct child of the reconciled subtree is not
stamped, although the header policy's `script-src` value contains `nonce` and
the nonce branch runs. -/
theorem c1_counterexample :
    nonceCondOf (getMetaCSPHead cexNestedTree)
        (getHeader (rCspOf (strL ("script-src nonce"))) cspName) = true ∧
      scriptFlag (getMetaCSPHead cexNestedTree)
        (getHeader (rCspOf (strL ("script-src nonce"))) cspName) = true ∧
      (⟨2, scriptTag, {}⟩ : Elem) ∈
        elemsF (contentSecurityPolicyHead vW
          (rCspOf (strL ("script-src nonce"))) cexNestedTree).2 ∧
      (⟨2, scriptTag, {}⟩ : Elem).props.nonce ≠ some vW := by
  decide

/-- C1 amended: assume the nonce value is fresh for the tree and the nonce
branch runs (some present representation's raw text contains `nonce`).  Then,
in the tree implementation, a descendant `script` element carries nonce V iff
some present representation's `script-src` value contained `nonce`, and
likewise `style` elements and `link[rel=stylesheet]` elements against
`style-src`; a still-truthy header is rewritten with `nonce-V` substituted
for every occurrence of `nonce`, a surviving meta element's content likewise,
and a promoted meta content reaches the header rewritten.  The head-fragment
implementation satisfies the same properties with the governed set restricted
to the direct children of the fragment root (its stylesheet links being those
whose first `rel` token is `stylesheet`). -/
theorem c1_amended :
    (∀ (nonce : Str) (res : Response) (tree : Forest),
      freshNonce nonce tree →
      nonceCondOf (getMetaCSPTree tree) (getHeader res cspName) = true →
      (∀ e ∈ elemsF (contentSecurityPolicyTree nonce res tree).2,
        (e.tag = scriptTag →
          (e.props.nonce = some nonce ↔
            scriptFlag (getMetaCSPTree tree) (getHeader res cspName) = true)) ∧
        (e.tag = styleTag →
          (e.props.nonce = some nonce ↔
            styleFlag (getMetaCSPTree tree) (getHeader res cspName) = true)) ∧
        (e.tag = linkTag → e.props.rel = [stylesheetLit] →
          (e.props.nonce = some nonce ↔
            styleFlag (getMetaCSPTree tree) (getHeader res cspName) = true))) ∧
      (truthyS (getHeader res cspName) = true →
        getHeader (contentSecurityPolicyTree nonce res tree).1 cspName =
          some (replaceAllStr nonceLit (nonceRepl nonce)
            ((getHeader res cspName).getD []))) ∧
      (∀ e0, getMetaCSPTree tree = some e0 →
        truthyS (getHeader res cspName) = true →
        (⟨e0.id, e0.tag,
          { e0.props with
            content := replaceAllStr nonceLit (nonceRepl nonce)
              e0.props.content }⟩ : Elem) ∈
          elemsF (contentSecurityPolicyTree nonce res tree).2) ∧
      (∀ e0, getMetaCSPTree tree = some e0 →
        truthyS (getHeader res cspName) = false → e0.props.keepAsMeta = true →
        (⟨e0.id, e0.tag,
          { e0.props with
            content := replaceAllStr nonceLit (nonceRepl nonce) e0.props.content,
            keepAsMeta := false }⟩ : Elem) ∈
          elemsF (contentSecurityPolicyTree nonce res tree).2) ∧
      (∀ e0, getMetaCSPTree tree = some e0 →
        truthyS (getHeader res cspName) = false → e0.props.keepAsMeta = false →
        getHeader (contentSecurityPolicyTree nonce res tree).1 cspName =
          some (replaceAllStr nonceLit (nonceRepl nonce) e0.props.content) ∧
        ∀ e ∈ elemsF (contentSecurityPolicyTree nonce res tree).2,
          e.id ≠ e0.id)) ∧
    (∀ (nonce : Str) (res : Response) (tree : Forest),
      freshNonceTop nonce tree →
      nonceCondOf (getMetaCSPHead tree) (getHeader res cspName) = true →
      (∀ e ∈ elemsTop (contentSecurityPolicyHead nonce res tree).2,
        (e.tag = scriptTag →
          (e.props.nonce = some nonce ↔
            scriptFlag (getMetaCSPHead tree) (getHeader res cspName) = true)) ∧
        (e.tag = styleTag →
          (e.props.nonce = some nonce ↔
            styleFlag (getMetaCSPHead tree) (getHeader res cspName) = true)) ∧
        (e.tag = linkTag → e.props.rel.head? = some stylesheetLit →
          (e.props.nonce = some nonce ↔
            styleFlag (getMetaCSPHead tree) (getHeader res cspName) = true))) ∧
      (truthyS (getHeader res cspName) = true →
        getHeader (contentSecurityPolicyHead nonce res tree).1 cspName =
          some (replaceAllStr nonceLit (nonceRepl nonce)
            ((getHeader res cspName).getD []))) ∧
      (∀ e0, getMetaCSPHead tree = some e0 →
        truthyS (getHeader res cspName) = true →
        (⟨e0.id, e0.tag,
          { e0.props with
            content := replaceAllStr nonceLit (nonceRepl nonce)
              e0.props.content }⟩ : Elem) ∈
          elemsTop (contentSecurityPolicyHead nonce res tree).2) ∧
      (∀ e0, getMetaCSPHead tree = some e0 →
        truthyS (getHeader res cspName) = false → e0.props.keepAsMeta = true →
        (⟨e0.id, e0.tag,
          { e0.props with
            content := replaceAllStr nonceLit (nonceRepl nonce) e0.props.content,
            keepAsMeta := false }⟩ : Elem) ∈
          elemsTop (contentSecurityPolicyHead nonce res tree).2) ∧
      (∀ e0, getMetaCSPHead tree = some e0 →
        truthyS (getHeader res cspName) = false → e0.props.keepAsMeta = false →
        getHeader (contentSecurityPolicyHead nonce res tree).1 cspName =
          some (replaceAllStr nonceLit (nonceRepl nonce) e0.props.content) ∧
        ∀ e ∈ elemsF (contentSecurityPolicyHead nonce res tree).2,
          e.id ≠ e0.id)) := by
  constructor
  · intro nonce res tree hfr hcond
    refine ⟨?_, reprTree nonce res tree hcond⟩
    intro e he
    have hiff := elemIffTree nonce res tree hfr hcond e he
    refine ⟨?_, ?_, ?_⟩
    · intro htag
      rw [hiff]
      simp [htag, script_ne_style, script_ne_link]
    · intro htag
      rw [hiff]
      simp [htag, style_ne_script, style_ne_link]
    · intro htag hrel
      rw [hiff]
      simp [htag, hrel, link_ne_script, link_ne_style]
  · intro nonce res tree hfr hcond
    refine ⟨?_, reprHead nonce res tree hcond⟩
    intro e he
    have hiff := elemIffHead nonce res tree hfr hcond e he
    refine ⟨?_, ?_, ?_⟩
    · intro htag
      rw [hiff]
      simp [htag, script_ne_style, script_ne_link]
    · intro htag
      rw [hiff]
      simp [htag, style_ne_script, style_ne_link]
    · intro htag hrel
      rw [hiff]
      simp [htag, hrel, link_ne_script, link_ne_style]

theorem c1_amended_witness :
    freshNonce vW witScriptTree ∧
      nonceCondOf (getMetaCSPTree witScriptTree) (getHeader rEmpty cspName) = true ∧
      ((⟨2, scriptTag, { nonce := some vW }⟩ : Elem).props.nonce = some vW ↔
        scriptFlag (getMetaCSPTree witScriptTree) (getHeader rEmpty cspName) = true) ∧
      getHeader (contentSecurityPolicyTree vW rEmpty witScriptTree).1 cspName =
        some (replaceAllStr nonceLit (nonceRepl vW)
          (strL ("default-src 'self'; script-src 'nonce'"))) :=
  ⟨by unfold freshNonce; decide, by decide,
    ((c1_amended.1 vW rEmpty witScriptTree (by unfold freshNonce; decide)
      (by decide)).1 ⟨2, scriptTag, { nonce := some vW }⟩ (by decide)).1 (by decide),
    ((c1_amended.1 vW rEmpty witScriptTree (by unfold freshNonce; decide)
      (by decide)).2.2.2.2
      ⟨1, metaTag,
        { httpEquiv := some cspName,
          content := strL ("default-src 'self'; script-src 'nonce'") }⟩
      (by decide) (by decide) (by decide)).1⟩

/-! ## Equivalence machinery for the two call sites -/

mutual
theorem mapPropsN_id_of {g : Nat → Str → Props → Props} :
    ∀ {n : HNode}, (∀ e ∈ elemsN n, g e.id e.tag e.props = e.props) →
      mapPropsN g n = n
  | .text s, _ => rfl
  | .element i t pr cs, h => by
    rw [mapPropsN]
    have hpr : g i t pr = pr := h ⟨i, t, pr⟩ (by rw [elemsN]; exact List.mem_cons_self _ _)
    rw [hpr, mapPropsF_id_of (fun e he => h e (by rw [elemsN]; exact List.mem_cons_of_mem _ he))]
theorem mapPropsF_id_of {g : Nat → Str → Props → Props} :
    ∀ {f : Forest}, (∀ e ∈ elemsF f, g e.id e.tag e.props = e.props) →
      mapPropsF g f = f
  | .nil, _ => rfl
  | .cons n f, h => by
    rw [mapPropsF]
    rw [mapPropsN_id_of (fun e he => h e (by rw [elemsF]; exact List.mem_append_left _ he)),
      mapPropsF_id_of (fun e he => h e (by rw [elemsF]; exact List.mem_append_right _ he))]
end

theorem mapPropsF_eq_mapPropsTop_of {g : Nat → Str → Props → Props} :
    ∀ {f : Forest}, (∀ e ∈ elemsBelowTop f, g e.id e.tag e.props = e.props) →
      mapPropsF g f = mapPropsTop g f
  | .nil, _ => rfl
  | .cons (.text s) f, h => by
    rw [mapPropsF, mapPropsTop, mapPropsN]
    rw [mapPropsF_eq_mapPropsTop_of (fun e he => h e (by rw [elemsBelowTop]; exact he))]
  | .cons (.element i t pr cs) f, h => by
    rw [mapPropsF, mapPropsTop, mapPropsN]
    rw [mapPropsF_id_of (fun e he => h e
      (by rw [elemsBelowTop]; exact List.mem_append_left _ he))]
    rw [mapPropsF_eq_mapPropsTop_of (fun e he => h e
      (by rw [elemsBelowTop]; exact List.mem_append_right _ he))]

theorem elemsBelowTop_mapPropsTop (g : Nat → Str → Props → Props) :
    ∀ f : Forest, elemsBelowTop (mapPropsTop g f) = elemsBelowTop f
  | .nil => rfl
  | .cons (.text s) f => by
    rw [mapPropsTop, elemsBelowTop, elemsBelowTop,
      elemsBelowTop_mapPropsTop g f]
  | .cons (.element i t pr cs) f => by
    rw [mapPropsTop, elemsBelowTop, elemsBelowTop,
      elemsBelowTop_mapPropsTop g f]

theorem elemsBelowTop_mapPropsF (g : Nat → Str → Props → Props) :
    ∀ f : Forest, elemsBelowTop (mapPropsF g f) =
      (elemsBelowTop f).map (fun e => ⟨e.id, e.tag, g e.id e.tag e.props⟩)
  | .nil => rfl
  | .cons (.text s) f => by
    rw [mapPropsF, mapPropsN, elemsBelowTop, elemsBelowTop,
      elemsBelowTop_mapPropsF g f]
  | .cons (.element i t pr cs) f => by
    rw [mapPropsF, mapPropsN, elemsBelowTop, elemsBelowTop,
      elemsBelowTop_mapPropsF g f, elemsF_mapPropsF, List.map_append]

theorem mapPropsTop_mapPropsTop (g1 g2 : Nat → Str → Props → Props) :
    ∀ f : Forest, mapPropsTop g2 (mapPropsTop g1 f) =
      mapPropsTop (fun i t pr => g2 i t (g1 i t pr)) f
  | .nil => rfl
  | .cons (.text s) f => by
    rw [mapPropsTop, mapPropsTop, mapPropsTop, mapPropsTop_mapPropsTop g1 g2 f]
  | .cons (.element i t pr cs) f => by
    rw [mapPropsTop, mapPropsTop, mapPropsTop, mapPropsTop_mapPropsTop g1 g2 f]

theorem mapPropsTop_congr {g g' : Nat → Str → Props → Props} :
    ∀ {f : Forest}, (∀ e ∈ elemsTop f, g e.id e.tag e.props = g' e.id e.tag e.props) →
      mapPropsTop g f = mapPropsTop g' f
  | .nil, _ => rfl
  | .cons (.text s) f, h => by
    rw [mapPropsTop, mapPropsTop]
    rw [mapPropsTop_congr (fun e he => h e (by rw [elemsTop]; exact he))]
  | .cons (.element i t pr cs) f, h => by
    rw [mapPropsTop, mapPropsTop]
    rw [h ⟨i, t, pr⟩ (by rw [elemsTop]; exact List.mem_cons_self _ _)]
    rw [mapPropsTop_congr (fun e he => h e
      (by rw [elemsTop]; exact List.mem_cons_of_mem _ he))]

theorem styleComp_eq (nonce : Str) (i : Nat) (t : Str) (pr : Props)
    (hiff : t = linkTag →
      (pr.rel = [stylesheetLit] ↔ pr.rel.head? = some stylesheetLit)) :
    gLinkExact nonce i t (gStyle nonce i t pr) = gStyleLinkHead nonce i t pr := by
  by_cases hst : t = styleTag
  · subst hst
    rw [gStyle_self, gStyleLinkHead_style, gLinkExact_of_ne _ _ _ style_ne_link]
  · rw [gStyle_of_ne _ _ _ hst]
    by_cases hlk : t = linkTag
    · subst hlk
      by_cases hrel : pr.rel = [stylesheetLit]
      · rw [gLinkExact_self _ _ hrel, gStyleLinkHead_link _ _ ((hiff rfl).mp hrel)]
      · rw [gLinkExact_of_rel _ _ _ hrel,
          gStyleLinkHead_link_of_rel _ _ (fun hh => hrel ((hiff rfl).mpr hh))]
    · rw [gLinkExact_of_ne _ _ _ hlk, gStyleLinkHead_of_ne _ _ _ hst hlk]

theorem ST_eq (nonce : Str) {f : Forest}
    (h2 : ∀ e ∈ elemsBelowTop f,
      e.tag ≠ scriptTag ∧ e.tag ≠ styleTag ∧ e.tag ≠ linkTag)
    (h3 : ∀ e ∈ elemsTop f, e.tag = linkTag →
      (e.props.rel = [stylesheetLit] ↔ e.props.rel.head? = some stylesheetLit))
    (sF stF : Bool) :
    (if stF then
      mapPropsF (gLinkExact nonce) (mapPropsF (gStyle nonce)
        (if sF then mapPropsF (gScript nonce) f else f))
    else (if sF then mapPropsF (gScript nonce) f else f)) =
    (if stF then
      mapPropsTop (gStyleLinkHead nonce)
        (if sF then mapPropsTop (gScript nonce) f else f)
    else (if sF then mapPropsTop (gScript nonce) f else f)) := by
  have eqInner : (if sF then mapPropsF (gScript nonce) f else f) =
      (if sF then mapPropsTop (gScript nonce) f else f) := by
    cases sF
    · rfl
    · simp only [if_true]
      exact mapPropsF_eq_mapPropsTop_of
        (fun e he => gScript_of_ne nonce _ _ (h2 e he).1)
  have h2Inner : ∀ e ∈ elemsBelowTop (if sF then mapPropsTop (gScript nonce) f else f),
      e.tag ≠ scriptTag ∧ e.tag ≠ styleTag ∧ e.tag ≠ linkTag := by
    cases sF
    · simpa using h2
    · simp only [if_true]
      rw [elemsBelowTop_mapPropsTop]
      exact h2
  have h3Inner : ∀ e ∈ elemsTop (if sF then mapPropsTop (gScript nonce) f else f),
      e.tag = linkTag →
        (e.props.rel = [stylesheetLit] ↔ e.props.rel.head? = some stylesheetLit) := by
    cases sF
    · simpa using h3
    · simp only [if_true]
      rw [elemsTop_mapPropsTop]
      intro e he
      obtain ⟨e1, h1, rfl⟩ := List.mem_map.mp he
      intro htag
      have := h3 e1 h1 htag
      simpa [gScript_rel] using this
  cases stF
  · simpa using eqInner
  · simp only [if_true]
    rw [eqInner]
    rw [mapPropsF_eq_mapPropsTop_of
      (fun e he => gStyle_of_ne nonce _ _ (h2Inner e he).2.1)]
    rw [mapPropsF_eq_mapPropsTop_of (f := mapPropsTop (gStyle nonce) _)
      (fun e he => by
        rw [elemsBelowTop_mapPropsTop] at he
        exact gLinkExact_of_ne nonce _ _ (h2Inner e he).2.2)]
    rw [mapPropsTop_mapPropsTop]
    refine mapPropsTop_congr ?_
    intro e he
    exact styleComp_eq nonce e.id e.tag e.props (fun htag => h3Inner e he htag)

/-! ## Claim C2 — equivalence of the two call sites -/

/-- C2 amended: given identical meta/header inputs, identical meta selection,
no governed elements below the direct children, and stylesheet links on which
the two `rel` conventions agree, the two implementations produce identical
reconciliation results. -/
theorem c2_amended (nonce : Str) (res : Response) (tree : Forest)
    (h1 : getMetaCSPTree tree = getMetaCSPHead tree)
    (h2 : ∀ e ∈ elemsBelowTop tree,
      e.tag ≠ scriptTag ∧ e.tag ≠ styleTag ∧ e.tag ≠ linkTag)
    (h3 : ∀ e ∈ elemsTop tree, e.tag = linkTag →
      (e.props.rel = [stylesheetLit] ↔ e.props.rel.head? = some stylesheetLit)) :
    contentSecurityPolicyTree nonce res tree =
      contentSecurityPolicyHead nonce res tree := by
  have h2b : ∀ (mid : Nat),
      ∀ e ∈ elemsBelowTop (mapPropsF (gContent mid nonce) tree),
        e.tag ≠ scriptTag ∧ e.tag ≠ styleTag ∧ e.tag ≠ linkTag := by
    intro mid e he
    rw [elemsBelowTop_mapPropsF] at he
    obtain ⟨e1, h1', rfl⟩ := List.mem_map.mp he
    exact h2 e1 h1'
  have h3b : ∀ (mid : Nat),
      ∀ e ∈ elemsTop (mapPropsF (gContent mid nonce) tree), e.tag = linkTag →
        (e.props.rel = [stylesheetLit] ↔ e.props.rel.head? = some stylesheetLit) := by
    intro mid e he
    rw [elemsTop_mapPropsF] at he
    obtain ⟨e1, h1', rfl⟩ := List.mem_map.mp he
    intro htag
    simpa [gContent_rel] using h3 e1 h1' htag
  by_cases hth : truthyS (getHeader res cspName) = true
  · obtain ⟨h, hh, hne⟩ : ∃ h, getHeader res cspName = some h ∧ h ≠ [] := by
      cases hg : getHeader res cspName with
      | none => rw [hg] at hth; exact absurd hth (by simp [truthyS])
      | some h =>
        refine ⟨h, rfl, ?_⟩
        rw [hg] at hth
        simpa [truthyS] using hth
    cases hm : getMetaCSPTree tree with
    | none =>
      have hmh : getMetaCSPHead tree = none := by rw [← h1]; exact hm
      rw [cspTree_of_noMeta_of_hdr nonce hm hh hne,
        cspHead_of_noMeta_of_hdr nonce hmh hh hne]
      by_cases hnc : includesSub nonceLit h = true
      · rw [if_pos hnc, if_pos hnc, createTree_of_hdr nonce none hne,
          createHead_of_hdr nonce none hne]
        exact congrArg _ (ST_eq nonce h2 h3 _ _)
      · rw [if_neg hnc, if_neg hnc]
    | some e0 =>
      have hmh : getMetaCSPHead tree = some e0 := by rw [← h1]; exact hm
      rw [cspTree_of_meta_of_hdr nonce hm hh hne,
        cspHead_of_meta_of_hdr nonce hmh hh hne]
      by_cases hnc : (includesSub nonceLit e0.props.content ||
          includesSub nonceLit h) = true
      · rw [if_pos hnc, if_pos hnc, createTree_of_hdr nonce (some e0) hne,
          createHead_of_hdr nonce (some e0) hne]
        exact congrArg _ (ST_eq nonce (h2b e0.id) (h3b e0.id) _ _)
      · rw [if_neg hnc, if_neg hnc]
  · have hh : truthyS (getHeader res cspName) = false := eq_false_of_ne_true hth
    cases hm : getMetaCSPTree tree with
    | none =>
      have hmh : getMetaCSPHead tree = none := by rw [← h1]; exact hm
      rw [cspTree_noop nonce hm hh, cspHead_noop nonce hmh hh]
    | some e0 =>
      have hmh : getMetaCSPHead tree = some e0 := by rw [← h1]; exact hm
      rw [cspTree_of_meta_of_noHdr nonce hm hh,
        cspHead_of_meta_of_noHdr nonce hmh hh]
      by_cases hnc : includesSub nonceLit e0.props.content = true
      · simp only [hnc, eq_self_iff_true, if_true]
        rw [createTree_of_noHdr nonce e0 hh, createHead_of_noHdr nonce e0 hh]
        have hST := ST_eq nonce (h2b e0.id) (h3b e0.id)
          (dirHasNonce e0.props.content scriptSrcLit)
          (dirHasNonce e0.props.content styleSrcLit)
        rw [hST]
      · simp only [Bool.not_eq_true] at hnc
        simp only [hnc, Bool.false_eq_true, if_false]

/-- C2 as stated is false on the code, in three independent ways: a script
nested below a direct child is stamped by the tree implementation but not by
the head-fragment implementation; with two differently-cased meta CSP
elements the two implementations select (and promote) different elements;
and a link whose `rel` list is `stylesheet preload` is stamped only by the
head-fragment implementation. -/
theorem c2_counterexample :
    contentSecurityPolicyTree vW (rCspOf (strL ("script-src nonce")))
        cexNestedTree ≠
      contentSecurityPolicyHead vW (rCspOf (strL ("script-src nonce")))
        cexNestedTree ∧
      contentSecurityPolicyTree vW rEmpty cexCaseTree ≠
        contentSecurityPolicyHead vW rEmpty cexCaseTree ∧
      contentSecurityPolicyTree vW (rCspOf (strL ("style-src nonce")))
          cexRelTree ≠
        contentSecurityPolicyHead vW (rCspOf (strL ("style-src nonce")))
          cexRelTree := by
  decide

theorem c2_amended_witness :
    getMetaCSPTree witScriptTree = getMetaCSPHead witScriptTree ∧
      (∀ e ∈ elemsBelowTop witScriptTree,
        e.tag ≠ scriptTag ∧ e.tag ≠ styleTag ∧ e.tag ≠ linkTag) ∧
      (∀ e ∈ elemsTop witScriptTree, e.tag = linkTag →
        (e.props.rel = [stylesheetLit] ↔
          e.props.rel.head? = some stylesheetLit)) ∧
      contentSecurityPolicyTree vW rEmpty witScriptTree =
        contentSecurityPolicyHead vW rEmpty witScriptTree :=
  ⟨by decide, by decide, by decide,
    c2_amended vW rEmpty witScriptTree (by decide) (by decide) (by decide)⟩
